import Mathlib

/-!
Verification of the chirp z-transform library (file chirp_z_transform.py).

The Python code computes with double-precision complex numbers; the embedding
below works with exact complex numbers, so numerical-tolerance statements of
the specification become exact equalities.  Every `np.power(b, e)` in the
source is modelled by the principal-branch complex power `Complex.cpow`
(which is what numpy computes on complex inputs), `scipy.fftpack.fft` and
`ifft` by the exact discrete Fourier transform and its inverse, and every
`raise` by an `Except.error` carrying the error kind of the specification
together with the offending values the source message interpolates.
Indexing a zero-length array (which raises `IndexError` in numpy) is
modelled by the `indexError` value.
-/

open Complex

/-- Error kinds of the specification, with the values the messages carry. -/
inductive CztError where
  | lengthMismatch (lx lc : ℕ)
  | toeplitzInvariantViolation (r0 c0 : ℂ)
  | dimensionMismatch (lX N : ℕ)
  | indexError

/-! ### The embedded source functions -/

/-- `scipy.fftpack.fft`: the (unnormalised) discrete Fourier transform. -/
noncomputable def fft (v : List ℂ) : List ℂ :=
  (List.range v.length).map fun (k : ℕ) =>
    ∑ j in Finset.range v.length,
      v.getD j 0 * Complex.exp (-(2 * Real.pi * Complex.I) * ((j : ℂ) * (k : ℂ)) / (v.length : ℂ))

/-- `scipy.fftpack.ifft`: the inverse discrete Fourier transform (scaled by 1/n). -/
noncomputable def ifft (v : List ℂ) : List ℂ :=
  (List.range v.length).map fun (j : ℕ) =>
    (∑ k in Finset.range v.length,
      v.getD k 0 * Complex.exp ((2 * Real.pi * Complex.I) * ((j : ℂ) * (k : ℂ)) / (v.length : ℂ)))
      / (v.length : ℂ)

/-- `circulant_multiply(c, x)` from the source: checks the lengths, then
computes `ifft(fft(c) * fft(x))` (elementwise product). -/
noncomputable def circulant_multiply (c x : List ℂ) : Except CztError (List ℂ) :=
  if x.length ≠ c.length then .error (.lengthMismatch x.length c.length)
  else .ok (ifft (List.zipWith (· * ·) (fft c) (fft x)))

/-- `toeplitz_multiply_e(r, c, x)` from the source: after evaluating `r[0]`
and `c[0]` (an `IndexError` on an empty array) and checking the invariant
`r[0] == c[0]` and `len(x) == len(r)`, embeds the Toeplitz product into a
circulant product of power-of-two size `n = 2 ** ceil(log2(M+N-1))` and
returns the first `M` entries. -/
noncomputable def toeplitz_multiply_e (r c x : List ℂ) : Except CztError (List ℂ) :=
  if r.length = 0 then .error .indexError
  else if c.length = 0 then .error .indexError
  else if r.getD 0 0 ≠ c.getD 0 0 then
    .error (.toeplitzInvariantViolation (r.getD 0 0) (c.getD 0 0))
  else if x.length ≠ r.length then .error (.lengthMismatch x.length r.length)
  else
    let N := r.length
    let M := c.length
    let n := 2 ^ Nat.clog 2 (M + N - 1)
    let C := c ++ List.replicate (n - (M + N - 1)) (0:ℂ) ++ (r.drop 1).reverse
    let X := x ++ List.replicate (n - N) (0:ℂ)
    (circulant_multiply C X).map fun Y => Y.take M

/-- `czt(x, M, W, A)` from the source: pre-scale with `W^(k^2/2) * A^(-k)`,
build the chirp Toeplitz descriptor `r[k] = c[k] = W^(-k^2/2)`, multiply,
post-scale with `W^(k^2/2)`. -/
noncomputable def czt (x : List ℂ) (M : ℕ) (W A : ℂ) : Except CztError (List ℂ) :=
  let N := x.length
  let X := (List.range N).map fun (k : ℕ) => W ^ (((k:ℂ)^2)/2) * A ^ (-(k:ℂ)) * x.getD k 0
  let r := (List.range N).map fun (k : ℕ) => W ^ (-((k:ℂ)^2)/2)
  let c := (List.range M).map fun (k : ℕ) => W ^ (-((k:ℂ)^2)/2)
  (toeplitz_multiply_e r c X).map fun Y =>
    (List.range M).map fun (k : ℕ) => W ^ (((k:ℂ)^2)/2) * Y.getD k 0

/-- The product sequence `p` of `iczt`: `p[0] = 1`, `p[k] = p[k-1] * (W^k - 1)`. -/
noncomputable def pseq (W : ℂ) : ℕ → ℂ
  | 0 => 1
  | k+1 => pseq W k * (W ^ (k+1) - 1)

/-- The pre-scaled vector of `iczt`: `x[k] = W^(-k^2/2) * X[k]`. -/
noncomputable def icztPre (X : List ℂ) (N : ℕ) (W : ℂ) : List ℂ :=
  (List.range N).map fun (k : ℕ) => W ^ (-((k:ℂ)^2)/2) * X.getD k 0

/-- The closed-form kernel entry of `iczt`:
`u[k] = (-1)^k * W^((2k^2 - (2n-1)k + n(n-1))/2) / (p[n-k-1] * p[k])`. -/
noncomputable def useqFn (W : ℂ) (n k : ℕ) : ℂ :=
  (-1:ℂ)^k *
    (W ^ ((2*(k:ℂ)^2 - (2*(n:ℂ)-1)*(k:ℂ) + (n:ℂ)*((n:ℂ)-1))/2) /
      (pseq W (n - k - 1) * pseq W k))

/-- The kernel vector `u` of `iczt`. -/
noncomputable def ulist (W : ℂ) (n : ℕ) : List ℂ :=
  (List.range n).map (useqFn W n)

/-- `uhat = np.pad(np.flip(u[1:]), (1, 0))`: a leading zero followed by the
reverse of `u[1:]`. -/
noncomputable def uhatList (W : ℂ) (n : ℕ) : List ℂ :=
  0 :: ((ulist W n).drop 1).reverse

/-- `util = np.pad(u[:1], (0, n-1))`: `u[0]` followed by `n-1` zeros. -/
noncomputable def utilList (W : ℂ) (n : ℕ) : List ℂ :=
  (ulist W n).take 1 ++ List.replicate (n-1) (0:ℂ)

/-- `iczt(X, N, W, A)` from the source: dimension check, pre-scale with
`W^(-k^2/2)`, the closed-form kernel `u`, the two auxiliary vectors `uhat`
and `util`, four Toeplitz products, the combination `(xpp - xp)/u[0]` and
the final post-scale `A^k * W^(-k^2/2)`.  When `N = 0` the source assignment
`p[0] = 1` indexes an empty array, hence `indexError`. -/
noncomputable def iczt (X : List ℂ) (N : ℕ) (W A : ℂ) : Except CztError (List ℂ) :=
  if X.length ≠ N then .error (.dimensionMismatch X.length N)
  else if N = 0 then .error .indexError
  else
    let x := icztPre X N W
    let u := ulist W N
    let z := List.replicate N (0:ℂ)
    let uhat := uhatList W N
    let util := utilList W N
    (toeplitz_multiply_e uhat z x).bind fun t1 =>
    (toeplitz_multiply_e z uhat t1).bind fun xp =>
    (toeplitz_multiply_e u util x).bind fun t2 =>
    (toeplitz_multiply_e util u t2).bind fun xpp =>
    .ok ((List.range N).map fun (k : ℕ) =>
      A ^ ((k:ℂ)) * W ^ (-((k:ℂ)^2)/2) * ((xpp.getD k 0 - xp.getD k 0) / u.getD 0 0))

/-- The principal square root `W ^ (1/2)`; every half-integer power of `W`
in the source is an integer power of it. -/
noncomputable def sqrtW (W : ℂ) : ℂ := W ^ ((2:ℂ)⁻¹)


/-! ### Specification-side definitions (stated from the words of the claims) -/

/-- Product by the circulant matrix whose column `j` is `c` cyclically
shifted down by `j` positions: entry `(i,j)` is `c[(i-j) mod n]`. -/
noncomputable def circulantSpec (c x : List ℂ) : List ℂ :=
  (List.range c.length).map fun (i : ℕ) =>
    ∑ j in Finset.range c.length, c.getD ((c.length + i - j) % c.length) 0 * x.getD j 0

/-- Dense product by the Toeplitz matrix whose entry `(i,j)` is `c[i-j]`
when `i ≥ j` and `r[j-i]` otherwise (constant along diagonals). -/
noncomputable def toeplitzDense (r c x : List ℂ) : List ℂ :=
  (List.range c.length).map fun (i : ℕ) =>
    ∑ j in Finset.range r.length,
      (if j ≤ i then c.getD (i - j) 0 else r.getD (j - i) 0) * x.getD j 0

/-- The matrix product literally described by claim C3: entry `(i,j)` equal
to `c[i]` when `i ≥ j` and `r[j-i]` otherwise. -/
noncomputable def toeplitzClaimDense (r c x : List ℂ) : List ℂ :=
  (List.range c.length).map fun (i : ℕ) =>
    ∑ j in Finset.range r.length,
      (if j ≤ i then c.getD i 0 else r.getD (j - i) 0) * x.getD j 0

/-- The direct chirp z-transform definition of the specification:
`X[k] = Σ_j x[j] * A^(-j) * W^(j*k)`. -/
noncomputable def cztSpec (x : List ℂ) (M : ℕ) (W A : ℂ) : List ℂ :=
  (List.range M).map fun (k : ℕ) =>
    ∑ j in Finset.range x.length, x.getD j 0 * A ^ (-(j:ℤ)) * W ^ (j * k)

/-- The standard discrete Fourier transform:
`X[k] = Σ_j x[j] * exp(-2*pi*i*j*k/N)`. -/
noncomputable def dftSpec (x : List ℂ) : List ℂ :=
  (List.range x.length).map fun (k : ℕ) =>
    ∑ j in Finset.range x.length,
      x.getD j 0 * Complex.exp (-(2 * Real.pi * Complex.I) * ((j:ℂ) * (k:ℂ)) / (x.length : ℂ))

/-! ### Vectors and structured matrices for the inverse-kernel argument -/

/-- The first standard basis vector. -/
noncomputable def e0vec (n : ℕ) : Fin n → ℂ := fun i => if (i:ℕ) = 0 then 1 else 0

/-- The last standard basis vector. -/
noncomputable def elastvec (n : ℕ) : Fin n → ℂ := fun i => if (i:ℕ) = n - 1 then 1 else 0

/-- Shift a vector down by one position, filling with zero. -/
noncomputable def shiftDown {n : ℕ} (v : Fin n → ℂ) : Fin n → ℂ :=
  fun i => if h : (i:ℕ) = 0 then 0 else v ⟨(i:ℕ) - 1, by have := i.isLt; omega⟩

/-- Shift a vector up by one position, filling with zero. -/
noncomputable def shiftUp {n : ℕ} (v : Fin n → ℂ) : Fin n → ℂ :=
  fun i => if h : (i:ℕ) + 1 < n then v ⟨(i:ℕ) + 1, h⟩ else 0

/-- The down-shift matrix (ones on the first subdiagonal). -/
noncomputable def Zmat (n : ℕ) : Matrix (Fin n) (Fin n) ℂ :=
  Matrix.of fun i j => if (i:ℕ) = (j:ℕ) + 1 then 1 else 0

/-- The flip (exchange) matrix (ones on the antidiagonal). -/
noncomputable def Jmat (n : ℕ) : Matrix (Fin n) (Fin n) ℂ :=
  Matrix.of fun i j => if (i:ℕ) + (j:ℕ) = n - 1 then 1 else 0

/-- The symmetric Toeplitz matrix with symbol τ (entry `(i,j)` is `τ |i-j|`). -/
noncomputable def Tmat (n : ℕ) (τ : ℕ → ℂ) : Matrix (Fin n) (Fin n) ℂ :=
  Matrix.of fun i j => τ (Nat.dist i j)

/-- The lower-triangular Toeplitz matrix with first column `v`. -/
noncomputable def LmatV {n : ℕ} (v : Fin n → ℂ) : Matrix (Fin n) (Fin n) ℂ :=
  Matrix.of fun i j =>
    if h : (j:ℕ) ≤ (i:ℕ) then v ⟨(i:ℕ) - j, by have := i.isLt; omega⟩ else 0

/-- Entry `m` of a `Fin n`-vector, with default zero out of range. -/
noncomputable def dval {n : ℕ} (w : Fin n → ℂ) (m : ℕ) : ℂ :=
  if h : m < n then w ⟨m, h⟩ else 0

/-- The shifted first row of a symmetric Toeplitz matrix (last entry zero),
the vector `s` in the displacement identity `TZ - ZT = e0 s^T - (Js) e_last^T`. -/
noncomputable def svec (n : ℕ) (τ : ℕ → ℂ) : Fin n → ℂ :=
  fun j => if (j:ℕ) = n - 1 then 0 else τ ((j:ℕ) + 1)

/-- The chirp Toeplitz symbol `τ d = s^(-d^2)` (in `s = sqrt W` units). -/
noncomputable def tauFn (s : ℂ) (d : ℕ) : ℂ := s ^ (-((d:ℤ)^2))

/-- The kernel `u` written with integer powers of `s = sqrt W`. -/
noncomputable def uIntFn (s : ℂ) (n k : ℕ) : ℂ :=
  (-1:ℂ)^k * (s ^ (2*(k:ℤ)^2 - (2*(n:ℤ)-1)*(k:ℤ) + (n:ℤ)*((n:ℤ)-1)) /
    (pseq (s^(2:ℕ)) (n - k - 1) * pseq (s^(2:ℕ)) k))

/-- Coefficient `m` of the polynomial `∏_{j=1}^{N} (s^(2j) - z)` (Gauss
q-binomial expansion). -/
noncomputable def qcoef (s : ℂ) (N m : ℕ) : ℂ :=
  (-1:ℂ)^m * s ^ (((N:ℤ)+1-m)*((N:ℤ)-m)) * pseq (s^(2:ℕ)) N /
    (pseq (s^(2:ℕ)) (N-m) * pseq (s^(2:ℕ)) m)

/-- A length-`n` list viewed as a `Fin n`-vector (default `0` out of range). -/
noncomputable def listToVec (n : ℕ) (l : List ℂ) : Fin n → ℂ := fun i => l.getD (i:ℕ) 0

/-- The pre-chirped input vector `w_j = s^(j^2) * A^(-j) * x_j` of the
round-trip argument. -/
noncomputable def chirpVec (s A : ℂ) (n : ℕ) (x : List ℂ) : Fin n → ℂ :=
  fun j => s ^ (((j:ℕ):ℤ)^2) * A ^ (-((j:ℕ):ℤ)) * x.getD (j:ℕ) 0

/-! ### Small list-indexing helpers -/

theorem getD_map_range {α : Type} [Inhabited α] (n k : ℕ) (f : ℕ → α) (h : k < n) :
    ((List.range n).map f).getD k default = f k := by
  simp [List.getD_eq_getElem?_getD, List.getElem?_map, List.getElem?_range h]

theorem getD_map_range_zero (n k : ℕ) (f : ℕ → ℂ) (h : k < n) :
    ((List.range n).map f).getD k 0 = f k := by
  simp [List.getD_eq_getElem?_getD, List.getElem?_map, List.getElem?_range h]

theorem getD_replicate_zero (m k : ℕ) : (List.replicate m (0:ℂ)).getD k 0 = 0 := by
  rcases lt_or_ge k m with h | h
  · rw [List.getD_eq_getElem _ _ (by simpa using h)]
    simp
  · exact List.getD_eq_default _ _ (by simpa using h)

theorem getD_reverse_zero (l : List ℂ) (j : ℕ) (h : j < l.length) :
    l.reverse.getD j 0 = l.getD (l.length - 1 - j) 0 := by
  simp [List.getD_eq_getElem?_getD, List.getElem?_reverse h]

theorem getD_drop_zero (l : List ℂ) (k j : ℕ) :
    (l.drop k).getD j 0 = l.getD (k + j) 0 := by
  simp [List.getD_eq_getElem?_getD, List.getElem?_drop]

theorem map_range_take {α : Type} (n m : ℕ) (f : ℕ → α) (h : m ≤ n) :
    ((List.range n).map f).take m = (List.range m).map f := by
  rw [← List.map_take, List.take_range, Nat.min_eq_left h]

theorem map_range_congr {α : Type} (n : ℕ) (f g : ℕ → α) (h : ∀ k < n, f k = g k) :
    (List.range n).map f = (List.range n).map g :=
  List.map_congr_left (fun a ha => h a (List.mem_range.mp ha))

theorem map_range_getD_self (l : List ℂ) :
    (List.range l.length).map (fun k => l.getD k 0) = l := by
  apply List.ext_getElem
  · simp
  · intro i h1 h2
    simp [List.getD_eq_getElem?_getD, List.getElem?_eq_getElem h2]

/-! ### Roots of unity and the convolution theorem -/

theorem fft_length (v : List ℂ) : (fft v).length = v.length := by simp [fft]

theorem ifft_length (v : List ℂ) : (ifft v).length = v.length := by simp [ifft]

theorem sum_exp_unit (n : ℕ) (hn : 0 < n) (m : ℤ) :
    ∑ k in Finset.range n,
      Complex.exp ((2 * Real.pi * Complex.I) * (m : ℂ) * (k : ℂ) / (n : ℂ)) =
      if (n:ℤ) ∣ m then (n:ℂ) else 0 := by
  have hn' : (n:ℂ) ≠ 0 := Nat.cast_ne_zero.mpr hn.ne'
  have hterm : ∀ k : ℕ,
      Complex.exp ((2 * Real.pi * Complex.I) * (m : ℂ) * (k : ℂ) / (n : ℂ)) =
      Complex.exp ((2 * Real.pi * Complex.I) * (m : ℂ) / (n : ℂ)) ^ k := by
    intro k
    rw [← Complex.exp_nat_mul]
    congr 1
    ring
  simp_rw [hterm]
  by_cases hd : (n:ℤ) ∣ m
  · obtain ⟨t, ht⟩ := hd
    have hw : Complex.exp ((2 * Real.pi * Complex.I) * (m : ℂ) / (n : ℂ)) = 1 := by
      have harg : (2 * Real.pi * Complex.I) * (m : ℂ) / (n : ℂ) =
          (t : ℂ) * (2 * Real.pi * Complex.I) := by
        have hm : (m : ℂ) = (n : ℂ) * (t : ℂ) := by exact_mod_cast congrArg (Int.cast : ℤ → ℂ) ht
        field_simp [hm]
        ring
      rw [harg]
      exact Complex.exp_int_mul_two_pi_mul_I t
    rw [hw, if_pos ⟨t, ht⟩]
    simp
  · have hw : Complex.exp ((2 * Real.pi * Complex.I) * (m : ℂ) / (n : ℂ)) ≠ 1 := by
      intro h1
      rw [Complex.exp_eq_one_iff] at h1
      obtain ⟨t, ht⟩ := h1
      apply hd
      refine ⟨t, ?_⟩
      have hI : (2 * Real.pi * Complex.I) ≠ 0 := by
        simp [Real.pi_ne_zero, Complex.I_ne_zero]
      have hm : (m : ℂ) = (n : ℂ) * (t : ℂ) := by
        rw [div_eq_iff hn'] at ht
        have ht' : (2 * Real.pi * Complex.I) * (m : ℂ) =
            (2 * Real.pi * Complex.I) * ((n : ℂ) * (t : ℂ)) := by
          linear_combination ht
        exact mul_left_cancel₀ hI ht'
      exact_mod_cast hm
    rw [geom_sum_eq hw]
    have hwn : Complex.exp ((2 * Real.pi * Complex.I) * (m : ℂ) / (n : ℂ)) ^ n = 1 := by
      rw [← Complex.exp_nat_mul]
      have harg : (n : ℂ) * ((2 * Real.pi * Complex.I) * (m : ℂ) / (n : ℂ)) =
          (m : ℂ) * (2 * Real.pi * Complex.I) := by
        field_simp
        ring
      rw [harg]
      exact Complex.exp_int_mul_two_pi_mul_I m
    rw [hwn, if_neg hd]
    simp

theorem dvd_iff_eq_mod (n : ℕ) (hn : 0 < n) (i a b : ℕ)
    (ha : a < n) (hb : b ≤ n + i) :
    (n:ℤ) ∣ ((i:ℤ) - a - b) ↔ a = (n + i - b) % n := by
  haveI : NeZero n := ⟨hn.ne'⟩
  have key : ((n:ℤ) ∣ ((i:ℤ) - a - b)) ↔
      ((a : ZMod n) = (i : ZMod n) - (b : ZMod n)) := by
    rw [← ZMod.intCast_zmod_eq_zero_iff_dvd]
    push_cast
    constructor
    · intro h
      linear_combination -h
    · intro h
      linear_combination -h
  have key2 : (((n + i - b) % n : ℕ) : ZMod n) = (i : ZMod n) - (b : ZMod n) := by
    rw [ZMod.natCast_mod, Nat.cast_sub hb]
    push_cast
    simp [ZMod.natCast_self]
  rw [key]
  constructor
  · intro h
    have hmod : (n + i - b) % n < n := Nat.mod_lt _ hn
    have : ((a : ℕ) : ZMod n) = (((n + i - b) % n : ℕ) : ZMod n) := by rw [key2]; exact h
    have := congrArg ZMod.val this
    rwa [ZMod.val_cast_of_lt ha, ZMod.val_cast_of_lt hmod] at this
  · intro h
    rw [h, key2]

theorem exp_combine (n i a b k : ℕ) :
    Complex.exp (-(2 * Real.pi * Complex.I) * ((a:ℂ) * (k:ℂ)) / (n:ℂ)) *
      Complex.exp (-(2 * Real.pi * Complex.I) * ((b:ℂ) * (k:ℂ)) / (n:ℂ)) *
      Complex.exp ((2 * Real.pi * Complex.I) * ((i:ℂ) * (k:ℂ)) / (n:ℂ)) =
    Complex.exp ((2 * Real.pi * Complex.I) * (((i:ℤ) - a - b : ℤ) : ℂ) * (k:ℂ) / (n:ℂ)) := by
  rw [← Complex.exp_add, ← Complex.exp_add]
  congr 1
  push_cast
  ring

theorem circulant_multiply_eq_spec (c x : List ℂ) (h : x.length = c.length)
    (hn : c.length ≠ 0) :
    circulant_multiply c x = .ok (circulantSpec c x) := by
  have hn0 : 0 < c.length := Nat.pos_of_ne_zero hn
  have hnC : (c.length : ℂ) ≠ 0 := Nat.cast_ne_zero.mpr hn
  unfold circulant_multiply
  rw [if_neg (by simp [h])]
  congr 1
  have hvl : (List.zipWith (· * ·) (fft c) (fft x)).length = c.length := by
    simp [List.length_zipWith, fft_length, h]
  have hvk : ∀ k, k < c.length →
      (List.zipWith (· * ·) (fft c) (fft x)).getD k 0 =
      (fft c).getD k 0 * (fft x).getD k 0 := by
    intro k hk
    rw [List.getD_eq_getElem _ _ (by rw [hvl]; exact hk), List.getElem_zipWith]
    rw [List.getD_eq_getElem _ _ (by rw [fft_length]; exact hk),
        List.getD_eq_getElem _ _ (by rw [fft_length, h]; exact hk)]
  have hfcK : ∀ k, k < c.length → (fft c).getD k 0 =
      ∑ a in Finset.range c.length,
        c.getD a 0 * Complex.exp (-(2 * Real.pi * Complex.I) * ((a:ℂ) * (k:ℂ)) / (c.length:ℂ)) := by
    intro k hk
    rw [fft]
    exact getD_map_range_zero _ _ _ hk
  have hfxK : ∀ k, k < c.length → (fft x).getD k 0 =
      ∑ b in Finset.range c.length,
        x.getD b 0 * Complex.exp (-(2 * Real.pi * Complex.I) * ((b:ℂ) * (k:ℂ)) / (c.length:ℂ)) := by
    intro k hk
    rw [fft, h]
    exact getD_map_range_zero _ _ _ hk
  rw [circulantSpec, ifft, hvl]
  apply map_range_congr
  intro i hi
  have key : ∑ k in Finset.range c.length,
      (List.zipWith (· * ·) (fft c) (fft x)).getD k 0 *
        Complex.exp ((2 * Real.pi * Complex.I) * ((i:ℂ) * (k:ℂ)) / (c.length:ℂ)) =
      (∑ j in Finset.range c.length,
        c.getD ((c.length + i - j) % c.length) 0 * x.getD j 0) * (c.length : ℂ) := by
    have step1 : ∀ k ∈ Finset.range c.length,
        (List.zipWith (· * ·) (fft c) (fft x)).getD k 0 *
          Complex.exp ((2 * Real.pi * Complex.I) * ((i:ℂ) * (k:ℂ)) / (c.length:ℂ)) =
        ∑ a in Finset.range c.length, ∑ b in Finset.range c.length,
          (c.getD a 0 * x.getD b 0) *
            Complex.exp ((2 * Real.pi * Complex.I) * (((i:ℤ) - a - b : ℤ) : ℂ) * (k:ℂ) / (c.length:ℂ)) := by
      intro k hk
      have hk' := Finset.mem_range.mp hk
      rw [hvk k hk', hfcK k hk', hfxK k hk', Finset.sum_mul_sum, Finset.sum_mul]
      apply Finset.sum_congr rfl
      intro a _
      rw [Finset.sum_mul]
      apply Finset.sum_congr rfl
      intro b _
      rw [show c.getD a 0 * Complex.exp (-(2 * Real.pi * Complex.I) * ((a:ℂ) * (k:ℂ)) / (c.length:ℂ)) *
            (x.getD b 0 * Complex.exp (-(2 * Real.pi * Complex.I) * ((b:ℂ) * (k:ℂ)) / (c.length:ℂ))) *
            Complex.exp ((2 * Real.pi * Complex.I) * ((i:ℂ) * (k:ℂ)) / (c.length:ℂ)) =
          (c.getD a 0 * x.getD b 0) *
            (Complex.exp (-(2 * Real.pi * Complex.I) * ((a:ℂ) * (k:ℂ)) / (c.length:ℂ)) *
              Complex.exp (-(2 * Real.pi * Complex.I) * ((b:ℂ) * (k:ℂ)) / (c.length:ℂ)) *
              Complex.exp ((2 * Real.pi * Complex.I) * ((i:ℂ) * (k:ℂ)) / (c.length:ℂ))) from by ring]
      rw [exp_combine]
    rw [Finset.sum_congr rfl step1]
    rw [Finset.sum_comm]
    have step2 : ∀ a ∈ Finset.range c.length,
        ∑ k in Finset.range c.length, ∑ b in Finset.range c.length,
          (c.getD a 0 * x.getD b 0) *
            Complex.exp ((2 * Real.pi * Complex.I) * (((i:ℤ) - a - b : ℤ) : ℂ) * (k:ℂ) / (c.length:ℂ)) =
        ∑ b in Finset.range c.length,
          (c.getD a 0 * x.getD b 0) *
            (if ((c.length:ℤ) ∣ ((i:ℤ) - a - b)) then (c.length:ℂ) else 0) := by
      intro a _
      rw [Finset.sum_comm]
      apply Finset.sum_congr rfl
      intro b _
      rw [← Finset.mul_sum, sum_exp_unit c.length hn0 ((i:ℤ) - a - b)]
    rw [Finset.sum_congr rfl step2]
    rw [Finset.sum_comm]
    rw [Finset.sum_mul]
    apply Finset.sum_congr rfl
    intro b hb
    have hb' := Finset.mem_range.mp hb
    rw [Finset.sum_eq_single ((c.length + i - b) % c.length)]
    · have hcond : (c.length:ℤ) ∣ ((i:ℤ) - (((c.length + i - b) % c.length : ℕ) : ℤ) - b) :=
        (dvd_iff_eq_mod c.length hn0 i ((c.length + i - b) % c.length) b
          (Nat.mod_lt _ hn0) (by omega)).mpr rfl
      rw [if_pos hcond]
    · intro a ha hne
      rw [if_neg, mul_zero]
      rw [dvd_iff_eq_mod c.length hn0 i a b (Finset.mem_range.mp ha) (by omega)]
      exact hne
    · intro hmem
      exact absurd (Finset.mem_range.mpr (Nat.mod_lt _ hn0)) hmem
  rw [key, mul_div_cancel_right₀ _ hnC]

/-! ### The Toeplitz product via circulant embedding -/

theorem toeplitz_multiply_e_eq_dense (r c x : List ℂ)
    (hr : r.length ≠ 0) (hc : c.length ≠ 0)
    (h0 : r.getD 0 0 = c.getD 0 0) (hx : x.length = r.length) :
    toeplitz_multiply_e r c x = .ok (toeplitzDense r c x) := by
  have hN1 : 1 ≤ r.length := Nat.one_le_iff_ne_zero.mpr hr
  have hM1 : 1 ≤ c.length := Nat.one_le_iff_ne_zero.mpr hc
  have hle : c.length + r.length - 1 ≤ 2 ^ Nat.clog 2 (c.length + r.length - 1) :=
    Nat.le_pow_clog (by norm_num) _
  have hnn0 : 0 < 2 ^ Nat.clog 2 (c.length + r.length - 1) := pow_pos (by norm_num) _
  simp only [toeplitz_multiply_e]
  rw [if_neg hr, if_neg hc,
      if_neg (show ¬(r.getD 0 0 ≠ c.getD 0 0) from by simpa using h0),
      if_neg (show ¬(x.length ≠ r.length) from by simpa using hx)]
  have hClen : (c ++ List.replicate (2 ^ Nat.clog 2 (c.length + r.length - 1)
        - (c.length + r.length - 1)) (0:ℂ) ++ (r.drop 1).reverse).length =
      2 ^ Nat.clog 2 (c.length + r.length - 1) := by
    simp only [List.length_append, List.length_replicate, List.length_reverse,
      List.length_drop]
    omega
  have hXlen : (x ++ List.replicate (2 ^ Nat.clog 2 (c.length + r.length - 1)
        - r.length) (0:ℂ)).length = 2 ^ Nat.clog 2 (c.length + r.length - 1) := by
    simp only [List.length_append, List.length_replicate, hx]
    omega
  rw [circulant_multiply_eq_spec _ _ (by rw [hClen, hXlen]) (by rw [hClen]; omega)]
  simp only [Except.map]
  congr 1
  simp only [circulantSpec, hClen]
  rw [map_range_take _ _ _ (by omega)]
  simp only [toeplitzDense]
  apply map_range_congr
  intro i hi
  rw [← Finset.sum_subset (Finset.range_subset.mpr (show r.length ≤
      2 ^ Nat.clog 2 (c.length + r.length - 1) by omega))
      (by
        intro j hj hj2
        have hjN : r.length ≤ j := by
          by_contra hcon
          exact hj2 (Finset.mem_range.mpr (by omega))
        have hXj0 : (x ++ List.replicate (2 ^ Nat.clog 2 (c.length + r.length - 1)
            - r.length) (0:ℂ)).getD j 0 = 0 := by
          rw [List.getD_append_right _ _ _ _ (by omega)]
          exact getD_replicate_zero _ _
        rw [hXj0, mul_zero])]
  apply Finset.sum_congr rfl
  intro j hj
  have hj' : j < r.length := Finset.mem_range.mp hj
  have hXj : (x ++ List.replicate (2 ^ Nat.clog 2 (c.length + r.length - 1)
      - r.length) (0:ℂ)).getD j 0 = x.getD j 0 :=
    List.getD_append _ _ _ _ (by omega)
  rw [hXj]
  congr 1
  rcases le_or_lt j i with hji | hij
  · rw [if_pos hji]
    have hidx : (2 ^ Nat.clog 2 (c.length + r.length - 1) + i - j) %
        2 ^ Nat.clog 2 (c.length + r.length - 1) = i - j := by
      have heq : 2 ^ Nat.clog 2 (c.length + r.length - 1) + i - j =
          2 ^ Nat.clog 2 (c.length + r.length - 1) + (i - j) := by omega
      rw [heq, Nat.add_mod_left, Nat.mod_eq_of_lt (by omega)]
    have hCj : (c ++ List.replicate (2 ^ Nat.clog 2 (c.length + r.length - 1)
        - (c.length + r.length - 1)) (0:ℂ) ++ (r.drop 1).reverse).getD (i - j) 0 =
        c.getD (i - j) 0 := by
      rw [List.append_assoc]
      exact List.getD_append _ _ _ _ (by omega)
    rw [hidx, hCj]
  · rw [if_neg (by omega)]
    have hidx : (2 ^ Nat.clog 2 (c.length + r.length - 1) + i - j) %
        2 ^ Nat.clog 2 (c.length + r.length - 1) =
        2 ^ Nat.clog 2 (c.length + r.length - 1) - (j - i) := by
      have heq : 2 ^ Nat.clog 2 (c.length + r.length - 1) + i - j =
          2 ^ Nat.clog 2 (c.length + r.length - 1) - (j - i) := by omega
      rw [heq, Nat.mod_eq_of_lt (by omega)]
    have hlen12 : (c ++ List.replicate (2 ^ Nat.clog 2 (c.length + r.length - 1)
        - (c.length + r.length - 1)) (0:ℂ)).length =
        2 ^ Nat.clog 2 (c.length + r.length - 1) - (r.length - 1) := by
      simp only [List.length_append, List.length_replicate]
      omega
    have hCj : (c ++ List.replicate (2 ^ Nat.clog 2 (c.length + r.length - 1)
        - (c.length + r.length - 1)) (0:ℂ) ++ (r.drop 1).reverse).getD
        (2 ^ Nat.clog 2 (c.length + r.length - 1) - (j - i)) 0 =
        r.getD (j - i) 0 := by
      rw [List.getD_append_right _ _ _ _ (by rw [hlen12]; omega), hlen12]
      rw [getD_reverse_zero _ _ (by simp only [List.length_drop]; omega)]
      simp only [List.length_drop]
      rw [getD_drop_zero]
      congr 1
      omega
    rw [hidx, hCj]

theorem toeplitzDense_length (r c x : List ℂ) :
    (toeplitzDense r c x).length = c.length := by
  simp [toeplitzDense]

/-! ### Half-integer powers of `W` as integer powers of a square root -/

theorem sqrtW_ne_zero (W : ℂ) (hW : W ≠ 0) : sqrtW W ≠ 0 := by
  simp [sqrtW, Complex.cpow_eq_zero_iff, hW]

theorem sqrtW_sq (W : ℂ) : sqrtW W ^ (2:ℕ) = W := by
  have h := Complex.cpow_int_mul W 2 ((2:ℂ)⁻¹)
  rw [show (((2:ℤ)):ℂ) * (2:ℂ)⁻¹ = 1 by norm_num, Complex.cpow_one] at h
  rw [sqrtW]
  exact_mod_cast h.symm

theorem cpow_int_half (W : ℂ) (m : ℤ) : W ^ (((m:ℤ):ℂ)/2) = sqrtW W ^ m := by
  rw [show ((m:ℤ):ℂ)/2 = ((m:ℤ):ℂ) * (2:ℂ)⁻¹ by ring, Complex.cpow_int_mul, sqrtW]

theorem cpow_natsq_half (W : ℂ) (k : ℕ) :
    W ^ (((k:ℂ)^2)/2) = sqrtW W ^ ((k:ℤ)^2) := by
  rw [show ((k:ℂ)^2)/2 = ((((k:ℤ)^2 : ℤ)):ℂ)/2 by push_cast; ring]
  exact cpow_int_half W ((k:ℤ)^2)

theorem cpow_neg_natsq_half (W : ℂ) (k : ℕ) :
    W ^ (-((k:ℂ)^2)/2) = sqrtW W ^ (-(k:ℤ)^2) := by
  rw [show -((k:ℂ)^2)/2 = (((-(k:ℤ)^2 : ℤ)):ℂ)/2 by push_cast; ring]
  exact cpow_int_half W (-(k:ℤ)^2)

theorem cpow_neg_nat (A : ℂ) (k : ℕ) : A ^ (-(k:ℂ)) = A ^ (-(k:ℤ)) := by
  rw [show -(k:ℂ) = ((-(k:ℤ) : ℤ):ℂ) by push_cast; ring, Complex.cpow_intCast]

theorem cpow_nat (A : ℂ) (k : ℕ) : A ^ ((k:ℂ)) = A ^ (k:ℕ) := by
  rw [show (k:ℂ) = (((k:ℕ)):ℂ) from rfl, Complex.cpow_natCast]

/-- The chirp identity for one summand: `s^(k^2) * s^(-(k-j)^2) * s^(j^2)`
collapses to `(s^2)^(j*k)`. -/
theorem chirp_entry (s Wb A xj : ℂ) (hs : s ≠ 0) (hW2 : s^(2:ℕ) = Wb)
    (d : ℤ) (j k : ℕ) (hd : d^2 = ((k:ℤ) - j)^2) :
    s ^ ((k:ℤ)^2) * (s ^ (-d^2) * (s ^ ((j:ℤ)^2) * A * xj)) = xj * A * Wb ^ (j * k) := by
  subst hW2
  have h1 : s ^ ((k:ℤ)^2) * (s ^ (-d^2) * (s ^ ((j:ℤ)^2) * A * xj)) =
      s ^ ((k:ℤ)^2 + -d^2 + (j:ℤ)^2) * (A * xj) := by
    rw [zpow_add₀ hs, zpow_add₀ hs]
    ring
  have h2 : (k:ℤ)^2 + -d^2 + (j:ℤ)^2 = (2:ℤ) * ((j*k : ℕ):ℤ) := by
    rw [hd]
    push_cast
    ring
  have h3 : s ^ ((2:ℤ) * ((j*k : ℕ):ℤ)) = (s^(2:ℕ)) ^ (j*k : ℕ) := by
    rw [zpow_mul]
    norm_cast
  rw [h1, h2, h3]
  ring

/-! ### The forward transform equals the direct chirp z-transform -/

theorem czt_eq_spec (x : List ℂ) (M : ℕ) (W A : ℂ)
    (hx : x.length ≠ 0) (hM : M ≠ 0) (hW : W ≠ 0) (hA : A ≠ 0) :
    czt x M W A = .ok (cztSpec x M W A) := by
  have hx0 : 0 < x.length := Nat.pos_of_ne_zero hx
  have hM0 : 0 < M := Nat.pos_of_ne_zero hM
  simp only [czt]
  rw [toeplitz_multiply_e_eq_dense _ _ _
      (by simp [hx]) (by simp [hM])
      (by rw [getD_map_range_zero _ _ _ hx0, getD_map_range_zero _ _ _ hM0])
      (by simp)]
  simp only [Except.map]
  congr 1
  simp only [cztSpec]
  apply map_range_congr
  intro k hk
  simp only [toeplitzDense, List.length_map, List.length_range]
  rw [getD_map_range_zero _ _ _ (by simpa using hk)]
  rw [Finset.mul_sum]
  apply Finset.sum_congr rfl
  intro j hj
  have hj' : j < x.length := Finset.mem_range.mp hj
  rw [getD_map_range_zero _ _ _ hj']
  have hs := sqrtW_ne_zero W hW
  rcases le_or_lt j k with hjk | hkj
  · rw [if_pos hjk, getD_map_range_zero _ _ _ (by omega)]
    rw [cpow_natsq_half, cpow_neg_natsq_half, cpow_natsq_half, cpow_neg_nat]
    exact chirp_entry _ _ _ _ hs (sqrtW_sq W) _ j k
      (by rw [show ((k - j : ℕ):ℤ) = (k:ℤ) - j by omega])
  · rw [if_neg (by omega), getD_map_range_zero _ _ _ (by omega)]
    rw [cpow_natsq_half, cpow_neg_natsq_half, cpow_natsq_half, cpow_neg_nat]
    exact chirp_entry _ _ _ _ hs (sqrtW_sq W) _ j k
      (by rw [show ((j - k : ℕ):ℤ) = (j:ℤ) - k by omega]; ring)

/-! ### The inverse transform in dense form -/

theorem ulist_length (W : ℂ) (n : ℕ) : (ulist W n).length = n := by simp [ulist]

theorem icztPre_length (X : List ℂ) (N : ℕ) (W : ℂ) : (icztPre X N W).length = N := by
  simp [icztPre]

theorem uhatList_length (W : ℂ) (n : ℕ) (hn : n ≠ 0) : (uhatList W n).length = n := by
  simp [uhatList, ulist]
  omega

theorem utilList_length (W : ℂ) (n : ℕ) (hn : n ≠ 0) : (utilList W n).length = n := by
  simp [utilList, ulist]
  omega

theorem uhatList_head (W : ℂ) (n : ℕ) : (uhatList W n).getD 0 0 = 0 := rfl

theorem utilList_head (W : ℂ) (n : ℕ) (hn : n ≠ 0) :
    (utilList W n).getD 0 0 = (ulist W n).getD 0 0 := by
  cases h : ulist W n with
  | nil =>
    have := ulist_length W n
    rw [h] at this
    simp at this
    omega
  | cons a t => simp [utilList, h]

theorem iczt_eq_dense (X : List ℂ) (N : ℕ) (W A : ℂ)
    (hlen : X.length = N) (hN : N ≠ 0) :
    iczt X N W A = .ok ((List.range N).map fun (k : ℕ) =>
      A ^ ((k:ℂ)) * W ^ (-((k:ℂ)^2)/2) *
        (((toeplitzDense (utilList W N) (ulist W N)
              (toeplitzDense (ulist W N) (utilList W N) (icztPre X N W))).getD k 0 -
          (toeplitzDense (List.replicate N (0:ℂ)) (uhatList W N)
              (toeplitzDense (uhatList W N) (List.replicate N (0:ℂ)) (icztPre X N W))).getD k 0) /
          (ulist W N).getD 0 0)) := by
  simp only [iczt]
  rw [if_neg (by omega), if_neg hN]
  rw [toeplitz_multiply_e_eq_dense (uhatList W N) (List.replicate N (0:ℂ)) (icztPre X N W)
      (by rw [uhatList_length _ _ hN]; exact hN) (by simp [hN])
      (by rw [uhatList_head, getD_replicate_zero])
      (by rw [icztPre_length, uhatList_length _ _ hN])]
  simp only [Except.bind]
  rw [toeplitz_multiply_e_eq_dense (List.replicate N (0:ℂ)) (uhatList W N)
      (toeplitzDense (uhatList W N) (List.replicate N (0:ℂ)) (icztPre X N W))
      (by simp [hN]) (by rw [uhatList_length _ _ hN]; exact hN)
      (by rw [uhatList_head, getD_replicate_zero])
      (by rw [toeplitzDense_length])]
  simp only [Except.bind]
  rw [toeplitz_multiply_e_eq_dense (ulist W N) (utilList W N) (icztPre X N W)
      (by rw [ulist_length]; exact hN) (by rw [utilList_length _ _ hN]; exact hN)
      (by rw [utilList_head _ _ hN]) (by rw [icztPre_length, ulist_length])]
  simp only [Except.bind]
  rw [toeplitz_multiply_e_eq_dense (utilList W N) (ulist W N)
      (toeplitzDense (ulist W N) (utilList W N) (icztPre X N W))
      (by rw [utilList_length _ _ hN]; exact hN) (by rw [ulist_length]; exact hN)
      (by rw [utilList_head _ _ hN])
      (by rw [toeplitzDense_length])]

open Matrix

/-! ### Entry lemmas for the structured matrices -/

theorem Zmat_mul_apply {n : ℕ} (X : Matrix (Fin n) (Fin n) ℂ) (i j : Fin n) :
    (Zmat n * X) i j =
      if h : (i:ℕ) = 0 then 0 else X ⟨(i:ℕ) - 1, by have := i.isLt; omega⟩ j := by
  rw [Matrix.mul_apply]
  split
  case isTrue h =>
    apply Finset.sum_eq_zero
    intro k _
    rw [show (Zmat n) i k = 0 from if_neg (by omega), zero_mul]
  case isFalse h =>
    rw [Fintype.sum_eq_single (⟨(i:ℕ) - 1, by have := i.isLt; omega⟩ : Fin n)]
    · rw [show (Zmat n) i ⟨(i:ℕ) - 1, by have := i.isLt; omega⟩ = 1 from
        if_pos (by simp only [Fin.val_mk]; omega), one_mul]
    · intro b hb
      rw [show (Zmat n) i b = 0 from if_neg (by
        simp only [ne_eq, Fin.ext_iff, Fin.val_mk] at hb
        omega), zero_mul]

theorem mul_Zmat_transpose_apply {n : ℕ} (X : Matrix (Fin n) (Fin n) ℂ) (i j : Fin n) :
    (X * (Zmat n)ᵀ) i j =
      if h : (j:ℕ) = 0 then 0 else X i ⟨(j:ℕ) - 1, by have := j.isLt; omega⟩ := by
  rw [Matrix.mul_apply]
  split
  case isTrue h =>
    apply Finset.sum_eq_zero
    intro k _
    rw [show ((Zmat n)ᵀ) k j = 0 from if_neg (by omega), mul_zero]
  case isFalse h =>
    rw [Fintype.sum_eq_single (⟨(j:ℕ) - 1, by have := j.isLt; omega⟩ : Fin n)]
    · rw [show ((Zmat n)ᵀ) ⟨(j:ℕ) - 1, by have := j.isLt; omega⟩ j = 1 from
        if_pos (by simp only [Fin.val_mk]; omega), mul_one]
    · intro b hb
      rw [show ((Zmat n)ᵀ) b j = 0 from if_neg (by
        simp only [ne_eq, Fin.ext_iff, Fin.val_mk] at hb
        omega), mul_zero]

theorem Zmat_mulVec {n : ℕ} (v : Fin n → ℂ) :
    (Zmat n).mulVec v = shiftDown v := by
  funext i
  rw [Matrix.mulVec, Matrix.dotProduct, shiftDown]
  split
  case isTrue h =>
    apply Finset.sum_eq_zero
    intro k _
    rw [show (Zmat n) i k = 0 from if_neg (by omega), zero_mul]
  case isFalse h =>
    rw [Fintype.sum_eq_single (⟨(i:ℕ) - 1, by have := i.isLt; omega⟩ : Fin n)]
    · rw [show (Zmat n) i ⟨(i:ℕ) - 1, by have := i.isLt; omega⟩ = 1 from
        if_pos (by simp only [Fin.val_mk]; omega), one_mul]
    · intro b hb
      rw [show (Zmat n) i b = 0 from if_neg (by
        simp only [ne_eq, Fin.ext_iff, Fin.val_mk] at hb
        omega), zero_mul]

theorem Zmat_transpose_mulVec {n : ℕ} (v : Fin n → ℂ) :
    (Zmat n)ᵀ.mulVec v = shiftUp v := by
  funext i
  rw [Matrix.mulVec, Matrix.dotProduct, shiftUp]
  split
  case isTrue h =>
    rw [Fintype.sum_eq_single (⟨(i:ℕ) + 1, h⟩ : Fin n)]
    · rw [show ((Zmat n)ᵀ) i ⟨(i:ℕ) + 1, h⟩ = 1 from if_pos (by simp), one_mul]
    · intro b hb
      rw [show ((Zmat n)ᵀ) i b = 0 from if_neg (by
        simp only [ne_eq, Fin.ext_iff, Fin.val_mk] at hb
        omega), zero_mul]
  case isFalse h =>
    apply Finset.sum_eq_zero
    intro k _
    rw [show ((Zmat n)ᵀ) i k = 0 from if_neg (by
      have := k.isLt
      omega), zero_mul]

theorem vecMul_Zmat_transpose {n : ℕ} (v : Fin n → ℂ) :
    Matrix.vecMul v (Zmat n)ᵀ = shiftDown v := by
  funext j
  rw [Matrix.vecMul, Matrix.dotProduct, shiftDown]
  split
  case isTrue h =>
    apply Finset.sum_eq_zero
    intro k _
    rw [show ((Zmat n)ᵀ) k j = 0 from if_neg (by omega), mul_zero]
  case isFalse h =>
    rw [Fintype.sum_eq_single (⟨(j:ℕ) - 1, by have := j.isLt; omega⟩ : Fin n)]
    · rw [show ((Zmat n)ᵀ) ⟨(j:ℕ) - 1, by have := j.isLt; omega⟩ j = 1 from
        if_pos (by simp only [Fin.val_mk]; omega), mul_one]
    · intro b hb
      rw [show ((Zmat n)ᵀ) b j = 0 from if_neg (by
        simp only [ne_eq, Fin.ext_iff, Fin.val_mk] at hb
        omega), mul_zero]

theorem Jmat_mulVec {n : ℕ} (hn : 0 < n) (v : Fin n → ℂ) (i : Fin n) :
    (Jmat n).mulVec v i = v ⟨n - 1 - (i:ℕ), by omega⟩ := by
  rw [Matrix.mulVec, Matrix.dotProduct]
  rw [Fintype.sum_eq_single (⟨n - 1 - (i:ℕ), by omega⟩ : Fin n)]
  · rw [show (Jmat n) i ⟨n - 1 - (i:ℕ), by omega⟩ = 1 from
      if_pos (by simp only [Fin.val_mk]; have := i.isLt; omega), one_mul]
  · intro b hb
    rw [show (Jmat n) i b = 0 from if_neg (by
      simp only [ne_eq, Fin.ext_iff, Fin.val_mk] at hb
      have := i.isLt
      have := b.isLt
      omega), zero_mul]

theorem Jmat_mul_apply {n : ℕ} (hn : 0 < n) (X : Matrix (Fin n) (Fin n) ℂ) (i j : Fin n) :
    (Jmat n * X) i j = X ⟨n - 1 - (i:ℕ), by omega⟩ j := by
  rw [Matrix.mul_apply]
  rw [Fintype.sum_eq_single (⟨n - 1 - (i:ℕ), by omega⟩ : Fin n)]
  · rw [show (Jmat n) i ⟨n - 1 - (i:ℕ), by omega⟩ = 1 from
      if_pos (by simp only [Fin.val_mk]; have := i.isLt; omega), one_mul]
  · intro b hb
    rw [show (Jmat n) i b = 0 from if_neg (by
      simp only [ne_eq, Fin.ext_iff, Fin.val_mk] at hb
      have := i.isLt
      have := b.isLt
      omega), zero_mul]

theorem mul_Jmat_apply {n : ℕ} (hn : 0 < n) (X : Matrix (Fin n) (Fin n) ℂ) (i j : Fin n) :
    (X * Jmat n) i j = X i ⟨n - 1 - (j:ℕ), by omega⟩ := by
  rw [Matrix.mul_apply]
  rw [Fintype.sum_eq_single (⟨n - 1 - (j:ℕ), by omega⟩ : Fin n)]
  · rw [show (Jmat n) ⟨n - 1 - (j:ℕ), by omega⟩ j = 1 from
      if_pos (by simp only [Fin.val_mk]; have := j.isLt; omega), mul_one]
  · intro b hb
    rw [show (Jmat n) b j = 0 from if_neg (by
      simp only [ne_eq, Fin.ext_iff, Fin.val_mk] at hb
      have := j.isLt
      have := b.isLt
      omega), mul_zero]

theorem Jmat_mul_Jmat {n : ℕ} (hn : 0 < n) : Jmat n * Jmat n = 1 := by
  ext i j
  rw [Jmat_mul_apply hn]
  rw [show (Jmat n) ⟨n - 1 - (i:ℕ), by omega⟩ j =
      if (n - 1 - (i:ℕ)) + (j:ℕ) = n - 1 then 1 else 0 from rfl]
  rw [Matrix.one_apply]
  have hi := i.isLt
  have hj := j.isLt
  by_cases hij : i = j
  · rw [if_pos hij, if_pos (by subst hij; omega)]
  · rw [if_neg hij, if_neg (by
      simp only [ne_eq, Fin.ext_iff] at hij
      omega)]

theorem Tmat_transpose {n : ℕ} (τ : ℕ → ℂ) : (Tmat n τ)ᵀ = Tmat n τ := by
  ext i j
  rw [Matrix.transpose_apply]
  show τ (Nat.dist j i) = τ (Nat.dist i j)
  rw [Nat.dist_comm]

theorem Jmat_mul_Tmat {n : ℕ} (hn : 0 < n) (τ : ℕ → ℂ) :
    Jmat n * Tmat n τ = Tmat n τ * Jmat n := by
  ext i j
  rw [Jmat_mul_apply hn, mul_Jmat_apply hn]
  show τ (Nat.dist (n - 1 - (i:ℕ)) j) = τ (Nat.dist i (n - 1 - (j:ℕ)))
  congr 1
  have hi := i.isLt
  have hj := j.isLt
  simp only [Nat.dist]
  omega

theorem mul_vecMulVec {n : ℕ} (G : Matrix (Fin n) (Fin n) ℂ) (u v : Fin n → ℂ) :
    G * Matrix.vecMulVec u v = Matrix.vecMulVec (G.mulVec u) v := by
  ext i j
  rw [Matrix.mul_apply, Matrix.vecMulVec_apply, Matrix.mulVec, Matrix.dotProduct,
    Finset.sum_mul]
  apply Finset.sum_congr rfl
  intro k _
  rw [Matrix.vecMulVec_apply]
  ring

theorem vecMulVec_mul {n : ℕ} (u v : Fin n → ℂ) (G : Matrix (Fin n) (Fin n) ℂ) :
    Matrix.vecMulVec u v * G = Matrix.vecMulVec u (Matrix.vecMul v G) := by
  ext i j
  rw [Matrix.mul_apply, Matrix.vecMulVec_apply, Matrix.vecMul, Matrix.dotProduct,
    Finset.mul_sum]
  apply Finset.sum_congr rfl
  intro k _
  rw [Matrix.vecMulVec_apply]
  ring

theorem Zmat_mul_Zmat_transpose {n : ℕ} :
    Zmat n * (Zmat n)ᵀ = 1 - Matrix.vecMulVec (e0vec n) (e0vec n) := by
  ext i j
  rw [mul_Zmat_transpose_apply, Matrix.sub_apply, Matrix.one_apply, Matrix.vecMulVec_apply]
  have hi := i.isLt
  have hj := j.isLt
  split
  next h =>
    by_cases hij : i = j
    · rw [if_pos hij, e0vec, e0vec, if_pos (by omega), if_pos (by
        subst hij
        omega)]
      norm_num
    · rw [if_neg hij, e0vec, e0vec]
      by_cases hi0 : (i:ℕ) = 0
      · rw [if_pos hi0, if_neg (by
          simp only [ne_eq, Fin.ext_iff] at hij
          omega)]
        norm_num
      · rw [if_neg hi0]
        norm_num
  next h =>
    rw [show (Zmat n) i ⟨(j:ℕ) - 1, by omega⟩ =
        if (i:ℕ) = ((j:ℕ) - 1) + 1 then 1 else 0 from rfl]
    rw [e0vec, e0vec]
    by_cases hij : (i:ℕ) = (j:ℕ) - 1 + 1
    · rw [if_pos hij, if_pos (show i = j from Fin.ext (by omega)),
        if_neg (show ¬((i:ℕ) = 0) from by omega)]
      norm_num
    · rw [if_neg hij, if_neg (show ¬(i = j) from by
        simp only [ne_eq, Fin.ext_iff]
        omega)]
      by_cases hi0 : (i:ℕ) = 0
      · rw [if_pos hi0, if_neg h]
        norm_num
      · rw [if_neg hi0]
        norm_num

theorem mul_Zmat_apply {n : ℕ} (X : Matrix (Fin n) (Fin n) ℂ) (i j : Fin n) :
    (X * Zmat n) i j =
      if h : (j:ℕ) + 1 < n then X i ⟨(j:ℕ) + 1, h⟩ else 0 := by
  rw [Matrix.mul_apply]
  split
  case isTrue h =>
    rw [Fintype.sum_eq_single (⟨(j:ℕ) + 1, h⟩ : Fin n)]
    · rw [show (Zmat n) ⟨(j:ℕ) + 1, h⟩ j = 1 from if_pos (by simp only [Fin.val_mk]),
        mul_one]
    · intro b hb
      rw [show (Zmat n) b j = 0 from if_neg (by
        simp only [ne_eq, Fin.ext_iff, Fin.val_mk] at hb
        omega), mul_zero]
  case isFalse h =>
    apply Finset.sum_eq_zero
    intro k _
    rw [show (Zmat n) k j = 0 from if_neg (by
      have := k.isLt
      omega), mul_zero]

theorem Tmat_commutator {n : ℕ} (hn : 0 < n) (τ : ℕ → ℂ) :
    Tmat n τ * Zmat n - Zmat n * Tmat n τ =
      Matrix.vecMulVec (e0vec n) (svec n τ) -
        Matrix.vecMulVec ((Jmat n).mulVec (svec n τ)) (elastvec n) := by
  ext i j
  have hi := i.isLt
  have hj := j.isLt
  rw [Matrix.sub_apply, Matrix.sub_apply, mul_Zmat_apply, Zmat_mul_apply,
    Matrix.vecMulVec_apply, Matrix.vecMulVec_apply, Jmat_mulVec hn]
  rw [show (e0vec n) i = (if (i:ℕ) = 0 then 1 else 0) from rfl]
  rw [show (elastvec n) j = (if (j:ℕ) = n - 1 then 1 else 0) from rfl]
  rw [show (svec n τ) j = (if (j:ℕ) = n - 1 then 0 else τ ((j:ℕ) + 1)) from rfl]
  rw [show (svec n τ) ⟨n - 1 - (i:ℕ), by omega⟩ =
      (if (n - 1 - (i:ℕ)) = n - 1 then 0 else τ ((n - 1 - (i:ℕ)) + 1)) from rfl]
  by_cases hi0 : (i:ℕ) = 0 <;> by_cases hjn : (j:ℕ) + 1 < n
  · rw [dif_pos hjn, dif_pos hi0]
    rw [if_pos hi0, if_neg (show ¬((j:ℕ) = n - 1) from by omega),
      if_pos (show n - 1 - (i:ℕ) = n - 1 from by omega),
      if_neg (show ¬((j:ℕ) = n - 1) from by omega)]
    rw [show (Tmat n τ) i ⟨(j:ℕ) + 1, hjn⟩ = τ (Nat.dist i ((j:ℕ) + 1)) from rfl]
    rw [show Nat.dist i ((j:ℕ) + 1) = (j:ℕ) + 1 from by
      simp only [Nat.dist]
      omega]
    ring
  · rw [dif_neg hjn, dif_pos hi0]
    rw [if_pos hi0, if_pos (show (j:ℕ) = n - 1 from by omega),
      if_pos (show n - 1 - (i:ℕ) = n - 1 from by omega),
      if_pos (show (j:ℕ) = n - 1 from by omega)]
    ring
  · rw [dif_pos hjn, dif_neg hi0]
    rw [if_neg hi0, if_neg (show ¬((j:ℕ) = n - 1) from by omega),
      if_neg (show ¬((j:ℕ) = n - 1) from by omega)]
    rw [show (Tmat n τ) i ⟨(j:ℕ) + 1, hjn⟩ = τ (Nat.dist i ((j:ℕ) + 1)) from rfl]
    rw [show (Tmat n τ) ⟨(i:ℕ) - 1, by omega⟩ j = τ (Nat.dist ((i:ℕ) - 1) j) from rfl]
    rw [show Nat.dist i ((j:ℕ) + 1) = Nat.dist ((i:ℕ) - 1) j from by
      simp only [Nat.dist]
      omega]
    ring
  · rw [dif_neg hjn, dif_neg hi0]
    rw [if_neg hi0, if_pos (show (j:ℕ) = n - 1 from by omega),
      if_pos (show (j:ℕ) = n - 1 from by omega),
      if_neg (show ¬(n - 1 - (i:ℕ) = n - 1) from by omega)]
    rw [show (Tmat n τ) ⟨(i:ℕ) - 1, by omega⟩ j = τ (Nat.dist ((i:ℕ) - 1) j) from rfl]
    rw [show Nat.dist ((i:ℕ) - 1) j = n - 1 - (i:ℕ) + 1 from by
      simp only [Nat.dist]
      omega]
    ring

/-! ### The displacement identity for the inverse of a symmetric Toeplitz matrix -/

theorem dval_eq {n : ℕ} (w : Fin n → ℂ) (m : ℕ) (h : m < n) :
    dval w m = w ⟨m, h⟩ := dif_pos h

theorem dval_apply {n : ℕ} (w : Fin n → ℂ) (i : Fin n) : dval w (i:ℕ) = w i := by
  rw [dval_eq w _ i.isLt]

theorem Tmat_mulVec_apply {n : ℕ} (τ : ℕ → ℂ) (w : Fin n → ℂ) (k : Fin n) :
    (Tmat n τ).mulVec w k = ∑ m in Finset.range n, τ (Nat.dist k m) * dval w m := by
  rw [Matrix.mulVec, Matrix.dotProduct, ← Fin.sum_univ_eq_sum_range]
  apply Finset.sum_congr rfl
  intro m _
  rw [show (Tmat n τ) k m = τ (Nat.dist k m) from rfl, dval_eq _ _ m.isLt]

theorem dval_shiftUp {n : ℕ} (a : Fin n → ℂ) (m : ℕ) :
    dval (shiftUp a) m = if m + 1 < n then dval a (m+1) else 0 := by
  by_cases hm : m < n
  · rw [dval_eq _ _ hm]
    rw [shiftUp]
    by_cases h1 : m + 1 < n
    · rw [dif_pos (by simpa using h1), if_pos h1, dval_eq _ _ h1]
    · rw [dif_neg (by simpa using h1), if_neg h1]
  · rw [show dval (shiftUp a) m = 0 from dif_neg hm, if_neg (by omega)]

theorem shiftDown_smul {n : ℕ} (b : ℂ) (v : Fin n → ℂ) :
    shiftDown (b • v) = b • shiftDown v := by
  funext i
  simp only [shiftDown, Pi.smul_apply, smul_eq_mul]
  split
  · rw [mul_zero]
  · rfl

theorem shiftDown_sub {n : ℕ} (v w : Fin n → ℂ) :
    shiftDown (v - w) = shiftDown v - shiftDown w := by
  funext i
  simp only [shiftDown, Pi.sub_apply]
  split
  · rw [sub_zero]
  · rfl

theorem shiftDown_shiftUp {n : ℕ} (a : Fin n → ℂ) :
    shiftDown (shiftUp a) = a - (dval a 0) • e0vec n := by
  funext i
  have hi := i.isLt
  simp only [shiftDown, shiftUp, Pi.sub_apply, Pi.smul_apply, smul_eq_mul, e0vec]
  split
  case isTrue h =>
    have hieq : i = ⟨0, by omega⟩ := Fin.ext h
    rw [hieq, dval_eq _ _ (by omega)]
    ring
  case isFalse h =>
    rw [mul_zero, sub_zero, dif_pos (by omega)]
    congr 1
    apply Fin.ext
    simp only [Fin.val_mk]
    omega

theorem Jmat_shiftUp {n : ℕ} (hn : 0 < n) (w : Fin n → ℂ) :
    (Jmat n).mulVec (shiftUp w) = shiftDown ((Jmat n).mulVec w) := by
  funext i
  have hi := i.isLt
  rw [Jmat_mulVec hn, shiftDown]
  simp only [shiftUp]
  split
  case isTrue h =>
    rw [dif_neg (show ¬((i:ℕ) = 0) from by omega), Jmat_mulVec hn]
    congr 1
    apply Fin.ext
    simp only [Fin.val_mk]
    omega
  case isFalse h =>
    rw [dif_pos (show (i:ℕ) = 0 from by omega)]

theorem Jmat_Jmat_mulVec {n : ℕ} (hn : 0 < n) (w : Fin n → ℂ) :
    (Jmat n).mulVec ((Jmat n).mulVec w) = w := by
  rw [Matrix.mulVec_mulVec, Jmat_mul_Jmat hn, Matrix.one_mulVec]

theorem elastvec_eq_Jmat_e0 {n : ℕ} (hn : 0 < n) :
    elastvec n = (Jmat n).mulVec (e0vec n) := by
  funext i
  have hi := i.isLt
  rw [Jmat_mulVec hn]
  simp only [elastvec, e0vec, Fin.val_mk]
  by_cases h : (i:ℕ) = n - 1
  · rw [if_pos h, if_pos (by omega)]
  · rw [if_neg h, if_neg (by omega)]

theorem sum_range_shift (f : ℕ → ℂ) (n : ℕ) (hn : 0 < n) :
    ∑ m in Finset.range n, f m = f 0 + ∑ m in Finset.range (n-1), f (m+1) := by
  obtain ⟨n', rfl⟩ : ∃ n', n = n' + 1 := ⟨n - 1, by omega⟩
  rw [Finset.sum_range_succ' f n']
  simp [Nat.add_sub_cancel]
  ring

theorem sum_range_drop_last (f : ℕ → ℂ) (n : ℕ) (hn : 0 < n) (hf : f (n-1) = 0) :
    ∑ m in Finset.range n, f m = ∑ m in Finset.range (n-1), f m := by
  obtain ⟨n', rfl⟩ : ∃ n', n = n' + 1 := ⟨n - 1, by omega⟩
  rw [Finset.sum_range_succ]
  simp only [Nat.add_sub_cancel] at hf
  rw [hf, add_zero]
  simp [Nat.add_sub_cancel]

theorem Tmat_mulVec_shiftUp {n : ℕ} (hn : 0 < n) (τ : ℕ → ℂ) (a : Fin n → ℂ)
    (hTa : (Tmat n τ).mulVec a = e0vec n) (k : Fin n) (hk : (k:ℕ) < n - 1) :
    (Tmat n τ).mulVec (shiftUp a) k = -(dval a 0) * τ ((k:ℕ) + 1) := by
  have h1 : (Tmat n τ).mulVec a ⟨(k:ℕ)+1, by omega⟩ = 0 := by
    rw [hTa]
    show (if ((k:ℕ)+1 : ℕ) = 0 then (1:ℂ) else 0) = 0
    rw [if_neg (by omega)]
  rw [Tmat_mulVec_apply] at h1
  rw [Tmat_mulVec_apply]
  rw [sum_range_shift _ n hn] at h1
  have hdist0 : Nat.dist ((⟨(k:ℕ)+1, by omega⟩ : Fin n) : ℕ) 0 = (k:ℕ) + 1 := by
    simp [Nat.dist]
  have hshift : ∀ m, m < n - 1 →
      Nat.dist ((⟨(k:ℕ)+1, by omega⟩ : Fin n) : ℕ) (m+1) = Nat.dist (k:ℕ) m := by
    intro m _
    simp only [Fin.val_mk, Nat.dist]
    omega
  have h2 : ∑ m in Finset.range (n-1), τ (Nat.dist (k:ℕ) m) * dval a (m+1) =
      - (τ ((k:ℕ)+1) * dval a 0) := by
    have h3 : ∑ m in Finset.range (n-1),
        τ (Nat.dist ((⟨(k:ℕ)+1, by omega⟩ : Fin n) : ℕ) (m+1)) * dval a (m+1) =
        ∑ m in Finset.range (n-1), τ (Nat.dist (k:ℕ) m) * dval a (m+1) := by
      apply Finset.sum_congr rfl
      intro m hm
      rw [hshift m (Finset.mem_range.mp hm)]
    rw [h3, hdist0] at h1
    linear_combination h1
  rw [sum_range_drop_last _ n hn (by
    rw [dval_shiftUp, if_neg (by omega), mul_zero])]
  have h4 : ∑ m in Finset.range (n-1), τ (Nat.dist (k:ℕ) m) * dval (shiftUp a) m =
      ∑ m in Finset.range (n-1), τ (Nat.dist (k:ℕ) m) * dval a (m+1) := by
    apply Finset.sum_congr rfl
    intro m hm
    rw [dval_shiftUp, if_pos (by have := Finset.mem_range.mp hm; omega)]
  rw [h4, h2]
  ring

theorem gs_displacement {n : ℕ} (hn : 0 < n) (τ : ℕ → ℂ) (G : Matrix (Fin n) (Fin n) ℂ)
    (hTG : Tmat n τ * G = 1) (hGT : G * Tmat n τ = 1) :
    dval (G.mulVec (e0vec n)) 0 • (G - Zmat n * G * (Zmat n)ᵀ) =
      Matrix.vecMulVec (G.mulVec (e0vec n)) (G.mulVec (e0vec n)) -
        Matrix.vecMulVec (shiftDown ((Jmat n).mulVec (G.mulVec (e0vec n))))
          (shiftDown ((Jmat n).mulVec (G.mulVec (e0vec n)))) := by
  have hTsym : (Tmat n τ)ᵀ = Tmat n τ := Tmat_transpose τ
  have hGsym : Gᵀ = G := by
    have h1 : Gᵀ * Tmat n τ = 1 := by
      have h2 := congrArg Matrix.transpose hTG
      rwa [Matrix.transpose_mul, hTsym, Matrix.transpose_one] at h2
    calc Gᵀ = Gᵀ * (Tmat n τ * G) := by rw [hTG, mul_one]
    _ = (Gᵀ * Tmat n τ) * G := by rw [mul_assoc]
    _ = G := by rw [h1, one_mul]
  have hGJ : G * Jmat n = Jmat n * G := by
    calc G * Jmat n = (G * Jmat n) * (Tmat n τ * G) := by rw [hTG, mul_one]
    _ = (G * (Jmat n * Tmat n τ)) * G := by noncomm_ring
    _ = (G * (Tmat n τ * Jmat n)) * G := by rw [Jmat_mul_Tmat hn τ]
    _ = ((G * Tmat n τ) * Jmat n) * G := by noncomm_ring
    _ = Jmat n * G := by rw [hGT, one_mul]
  have hvm : ∀ v : Fin n → ℂ, Matrix.vecMul v G = G.mulVec v := by
    intro v
    nth_rewrite 1 [← hGsym]
    exact Matrix.vecMul_transpose G v
  have hTa : (Tmat n τ).mulVec (G.mulVec (e0vec n)) = e0vec n := by
    rw [Matrix.mulVec_mulVec, hTG, Matrix.one_mulVec]
  have hGe : G.mulVec (elastvec n) = (Jmat n).mulVec (G.mulVec (e0vec n)) := by
    rw [elastvec_eq_Jmat_e0 hn, Matrix.mulVec_mulVec, Matrix.mulVec_mulVec, hGJ]
  have hGJv : ∀ v : Fin n → ℂ, G.mulVec ((Jmat n).mulVec v) =
      (Jmat n).mulVec (G.mulVec v) := by
    intro v
    rw [Matrix.mulVec_mulVec, Matrix.mulVec_mulVec, hGJ]
  have hDelta : Zmat n * G - G * Zmat n =
      Matrix.vecMulVec (G.mulVec (e0vec n)) (G.mulVec (svec n τ)) -
        Matrix.vecMulVec ((Jmat n).mulVec (G.mulVec (svec n τ)))
          ((Jmat n).mulVec (G.mulVec (e0vec n))) := by
    have hkey : Zmat n * G - G * Zmat n =
        G * (Tmat n τ * Zmat n - Zmat n * Tmat n τ) * G := by
      have e1 : G * (Tmat n τ * Zmat n) * G = Zmat n * G := by
        rw [← mul_assoc, hGT, one_mul]
      have e2 : G * (Zmat n * Tmat n τ) * G = G * Zmat n := by
        rw [← mul_assoc, mul_assoc (G * Zmat n), hTG, mul_one]
      calc Zmat n * G - G * Zmat n
          = G * (Tmat n τ * Zmat n) * G - G * (Zmat n * Tmat n τ) * G := by rw [e1, e2]
      _ = G * (Tmat n τ * Zmat n - Zmat n * Tmat n τ) * G := by noncomm_ring
    rw [hkey, Tmat_commutator hn τ, Matrix.mul_sub, Matrix.sub_mul]
    rw [mul_vecMulVec, mul_vecMulVec, vecMulVec_mul, vecMulVec_mul]
    rw [hvm, hvm, hGJv, hGe]
  have hq := Tmat_mulVec_shiftUp hn τ (G.mulVec (e0vec n)) hTa
  have hsv : (dval (G.mulVec (e0vec n)) 0) • svec n τ =
      ((Tmat n τ).mulVec (shiftUp (G.mulVec (e0vec n))) ⟨n-1, by omega⟩) • elastvec n -
        (Tmat n τ).mulVec (shiftUp (G.mulVec (e0vec n))) := by
    funext k
    have hk := k.isLt
    simp only [Pi.smul_apply, Pi.sub_apply, smul_eq_mul]
    by_cases hkn : (k:ℕ) < n - 1
    · rw [hq k hkn]
      rw [show svec n τ k = τ ((k:ℕ)+1) from if_neg (by omega)]
      rw [show elastvec n k = 0 from if_neg (by omega)]
      ring
    · have hkeq : k = ⟨n-1, by omega⟩ := Fin.ext (by simp only [Fin.val_mk]; omega)
      rw [show svec n τ k = 0 from if_pos (by omega)]
      rw [show elastvec n k = 1 from if_pos (by omega)]
      rw [hkeq]
      ring
  have hp8 : (dval (G.mulVec (e0vec n)) 0) • (G.mulVec (svec n τ)) =
      ((Tmat n τ).mulVec (shiftUp (G.mulVec (e0vec n))) ⟨n-1, by omega⟩) •
          ((Jmat n).mulVec (G.mulVec (e0vec n))) -
        shiftUp (G.mulVec (e0vec n)) := by
    have h5 := congrArg (fun v => G.mulVec v) hsv
    simp only at h5
    rw [Matrix.mulVec_smul, Matrix.mulVec_sub, Matrix.mulVec_smul] at h5
    rw [hGe, show G.mulVec ((Tmat n τ).mulVec (shiftUp (G.mulVec (e0vec n)))) =
        shiftUp (G.mulVec (e0vec n)) from by
      rw [Matrix.mulVec_mulVec, hGT, Matrix.one_mulVec]] at h5
    exact h5
  have hZZ := Zmat_mul_Zmat_transpose (n := n)
  have hmain : G - Zmat n * G * (Zmat n)ᵀ =
      Matrix.vecMulVec (G.mulVec (e0vec n)) (e0vec n) -
        (Matrix.vecMulVec (G.mulVec (e0vec n)) (shiftDown (G.mulVec (svec n τ))) -
          Matrix.vecMulVec ((Jmat n).mulVec (G.mulVec (svec n τ)))
            (shiftDown ((Jmat n).mulVec (G.mulVec (e0vec n))))) := by
    calc G - Zmat n * G * (Zmat n)ᵀ
        = G - (G * Zmat n + (Zmat n * G - G * Zmat n)) * (Zmat n)ᵀ := by noncomm_ring
    _ = G - G * (Zmat n * (Zmat n)ᵀ) -
          (Zmat n * G - G * Zmat n) * (Zmat n)ᵀ := by noncomm_ring
    _ = G - G * (1 - Matrix.vecMulVec (e0vec n) (e0vec n)) -
          (Matrix.vecMulVec (G.mulVec (e0vec n)) (G.mulVec (svec n τ)) -
            Matrix.vecMulVec ((Jmat n).mulVec (G.mulVec (svec n τ)))
              ((Jmat n).mulVec (G.mulVec (e0vec n)))) * (Zmat n)ᵀ := by
          rw [hZZ, hDelta]
    _ = G * Matrix.vecMulVec (e0vec n) (e0vec n) -
          (Matrix.vecMulVec (G.mulVec (e0vec n)) (G.mulVec (svec n τ)) * (Zmat n)ᵀ -
            Matrix.vecMulVec ((Jmat n).mulVec (G.mulVec (svec n τ)))
              ((Jmat n).mulVec (G.mulVec (e0vec n))) * (Zmat n)ᵀ) := by noncomm_ring
    _ = Matrix.vecMulVec (G.mulVec (e0vec n)) (e0vec n) -
          (Matrix.vecMulVec (G.mulVec (e0vec n)) (shiftDown (G.mulVec (svec n τ))) -
            Matrix.vecMulVec ((Jmat n).mulVec (G.mulVec (svec n τ)))
              (shiftDown ((Jmat n).mulVec (G.mulVec (e0vec n))))) := by
          rw [mul_vecMulVec, vecMulVec_mul, vecMulVec_mul,
            vecMul_Zmat_transpose, vecMul_Zmat_transpose]
  have fact1 : ∀ j : Fin n,
      dval (G.mulVec (e0vec n)) 0 * shiftDown (G.mulVec (svec n τ)) j =
        ((Tmat n τ).mulVec (shiftUp (G.mulVec (e0vec n))) ⟨n-1, by omega⟩) *
            shiftDown ((Jmat n).mulVec (G.mulVec (e0vec n))) j -
          G.mulVec (e0vec n) j +
          dval (G.mulVec (e0vec n)) 0 * e0vec n j := by
    intro j
    have h6 := congrArg shiftDown hp8
    rw [shiftDown_smul, shiftDown_sub, shiftDown_smul, shiftDown_shiftUp] at h6
    have h7 := congrFun h6 j
    simp only [Pi.smul_apply, Pi.sub_apply, smul_eq_mul] at h7
    linear_combination h7
  have fact2 : ∀ i : Fin n,
      dval (G.mulVec (e0vec n)) 0 * (Jmat n).mulVec (G.mulVec (svec n τ)) i =
        ((Tmat n τ).mulVec (shiftUp (G.mulVec (e0vec n))) ⟨n-1, by omega⟩) *
            G.mulVec (e0vec n) i -
          shiftDown ((Jmat n).mulVec (G.mulVec (e0vec n))) i := by
    intro i
    have h6 := congrArg (fun v => (Jmat n).mulVec v) hp8
    simp only at h6
    rw [Matrix.mulVec_smul, Matrix.mulVec_sub, Matrix.mulVec_smul,
      Jmat_Jmat_mulVec hn, Jmat_shiftUp hn] at h6
    have h7 := congrFun h6 i
    simp only [Pi.smul_apply, Pi.sub_apply, smul_eq_mul] at h7
    linear_combination h7
  ext i j
  rw [Matrix.smul_apply, hmain]
  rw [Matrix.sub_apply, Matrix.sub_apply, Matrix.sub_apply,
    Matrix.vecMulVec_apply, Matrix.vecMulVec_apply, Matrix.vecMulVec_apply,
    Matrix.vecMulVec_apply, Matrix.vecMulVec_apply]
  have e1 := fact1 j
  have e2 := fact2 i
  rw [smul_eq_mul]
  linear_combination (-(G.mulVec (e0vec n) i)) * e1 +
    (shiftDown ((Jmat n).mulVec (G.mulVec (e0vec n))) j) * e2

theorem Zmat_pow_apply {n : ℕ} (k : ℕ) (i j : Fin n) :
    (Zmat n ^ k) i j = if (i:ℕ) = (j:ℕ) + k then 1 else 0 := by
  induction k generalizing i j with
  | zero =>
    rw [pow_zero, Matrix.one_apply]
    by_cases h : i = j
    · rw [if_pos h, if_pos (by rw [h]; omega)]
    · rw [if_neg h, if_neg (by
        simp only [ne_eq, Fin.ext_iff] at h
        omega)]
  | succ k ih =>
    rw [pow_succ, mul_Zmat_apply]
    split
    case isTrue h =>
      rw [ih]
      by_cases hik : (i:ℕ) = (j:ℕ) + 1 + k
      · rw [if_pos (by simp only [Fin.val_mk]; omega), if_pos (by omega)]
      · rw [if_neg (by simp only [Fin.val_mk]; omega), if_neg (by omega)]
    case isFalse h =>
      rw [if_neg (by have := i.isLt; omega)]

theorem Zmat_pow_n {n : ℕ} : Zmat n ^ n = 0 := by
  ext i j
  rw [Zmat_pow_apply, if_neg (by have := i.isLt; omega)]
  rfl

theorem reconstruction {n : ℕ} (X : Matrix (Fin n) (Fin n) ℂ) :
    X = ∑ k in Finset.range n,
      Zmat n ^ k * (X - Zmat n * X * (Zmat n)ᵀ) * ((Zmat n)ᵀ) ^ k := by
  have htel : ∀ k ∈ Finset.range n,
      Zmat n ^ k * (X - Zmat n * X * (Zmat n)ᵀ) * ((Zmat n)ᵀ) ^ k =
        (fun m => Zmat n ^ m * X * ((Zmat n)ᵀ) ^ m) k -
          (fun m => Zmat n ^ m * X * ((Zmat n)ᵀ) ^ m) (k+1) := by
    intro k _
    simp only
    rw [pow_succ, pow_succ']
    noncomm_ring
  rw [Finset.sum_congr rfl htel, Finset.sum_range_sub' _ n]
  simp only [pow_zero, one_mul, mul_one, Zmat_pow_n]
  rw [Matrix.zero_mul, Matrix.zero_mul, sub_zero]

theorem Zmat_pow_mul_apply {n : ℕ} (k : ℕ) (Y : Matrix (Fin n) (Fin n) ℂ) (i j : Fin n) :
    (Zmat n ^ k * Y) i j =
      if h : k ≤ (i:ℕ) then Y ⟨(i:ℕ) - k, by have := i.isLt; omega⟩ j else 0 := by
  rw [Matrix.mul_apply]
  split
  case isTrue h =>
    rw [Fintype.sum_eq_single (⟨(i:ℕ) - k, by have := i.isLt; omega⟩ : Fin n)]
    · rw [Zmat_pow_apply, if_pos (by simp only [Fin.val_mk]; omega), one_mul]
    · intro b hb
      rw [Zmat_pow_apply, if_neg (by
        simp only [ne_eq, Fin.ext_iff, Fin.val_mk] at hb
        omega), zero_mul]
  case isFalse h =>
    apply Finset.sum_eq_zero
    intro b _
    rw [Zmat_pow_apply, if_neg (by have := b.isLt; omega), zero_mul]

theorem mul_Zmat_transpose_pow_apply {n : ℕ} (k : ℕ) (Y : Matrix (Fin n) (Fin n) ℂ)
    (i j : Fin n) :
    (Y * ((Zmat n)ᵀ) ^ k) i j =
      if h : k ≤ (j:ℕ) then Y i ⟨(j:ℕ) - k, by have := j.isLt; omega⟩ else 0 := by
  rw [← Matrix.transpose_pow, Matrix.mul_apply]
  split
  case isTrue h =>
    rw [Fintype.sum_eq_single (⟨(j:ℕ) - k, by have := j.isLt; omega⟩ : Fin n)]
    · rw [Matrix.transpose_apply, Zmat_pow_apply,
        if_pos (by simp only [Fin.val_mk]; omega), mul_one]
    · intro b hb
      rw [Matrix.transpose_apply, Zmat_pow_apply, if_neg (by
        simp only [ne_eq, Fin.ext_iff, Fin.val_mk] at hb
        omega), mul_zero]
  case isFalse h =>
    apply Finset.sum_eq_zero
    intro b _
    rw [Matrix.transpose_apply, Zmat_pow_apply, if_neg (by have := b.isLt; omega),
      mul_zero]

theorem LmatV_apply_dval {n : ℕ} (w : Fin n → ℂ) (i m : Fin n) :
    LmatV w i m = if (m:ℕ) ≤ (i:ℕ) then dval w ((i:ℕ) - (m:ℕ)) else 0 := by
  show (if h : (m:ℕ) ≤ (i:ℕ) then w ⟨(i:ℕ) - m, by have := i.isLt; omega⟩ else 0) = _
  split
  case isTrue h =>
    exact (dval_eq _ _ (by have := i.isLt; omega)).symm
  case isFalse h =>
    rfl

theorem sum_Zpow_vecMulVec {n : ℕ} (w : Fin n → ℂ) :
    ∑ k in Finset.range n, Zmat n ^ k * Matrix.vecMulVec w w * ((Zmat n)ᵀ) ^ k =
      LmatV w * (LmatV w)ᵀ := by
  ext i j
  rw [Matrix.sum_apply]
  have hterm : ∀ k ∈ Finset.range n,
      (Zmat n ^ k * Matrix.vecMulVec w w * ((Zmat n)ᵀ) ^ k) i j =
        (if k ≤ (i:ℕ) then dval w ((i:ℕ) - k) else 0) *
          (if k ≤ (j:ℕ) then dval w ((j:ℕ) - k) else 0) := by
    intro k _
    rw [mul_Zmat_transpose_pow_apply]
    split
    case isTrue h =>
      rw [Zmat_pow_mul_apply]
      split
      case isTrue h2 =>
        rw [Matrix.vecMulVec_apply,
          dval_eq _ _ (by have := i.isLt; omega), dval_eq _ _ (by have := j.isLt; omega)]
      case isFalse h2 =>
        rw [zero_mul]
    case isFalse h =>
      rw [mul_zero]
  rw [Finset.sum_congr rfl hterm]
  rw [Matrix.mul_apply]
  have hrhs : ∀ m : Fin n, LmatV w i m * (LmatV w)ᵀ m j =
      (fun (q : ℕ) => (if q ≤ (i:ℕ) then dval w ((i:ℕ) - q) else 0) *
        (if q ≤ (j:ℕ) then dval w ((j:ℕ) - q) else 0)) (m:ℕ) := by
    intro m
    rw [Matrix.transpose_apply, LmatV_apply_dval, LmatV_apply_dval]
  rw [Finset.sum_congr rfl (fun m _ => hrhs m)]
  exact (Fin.sum_univ_eq_sum_range _ n).symm

theorem gs_formula {n : ℕ} (hn : 0 < n) (τ : ℕ → ℂ) (G : Matrix (Fin n) (Fin n) ℂ)
    (hTG : Tmat n τ * G = 1) (hGT : G * Tmat n τ = 1) :
    dval (G.mulVec (e0vec n)) 0 • G =
      LmatV (G.mulVec (e0vec n)) * (LmatV (G.mulVec (e0vec n)))ᵀ -
        LmatV (shiftDown ((Jmat n).mulVec (G.mulVec (e0vec n)))) *
          (LmatV (shiftDown ((Jmat n).mulVec (G.mulVec (e0vec n)))))ᵀ := by
  have hrec := reconstruction (dval (G.mulVec (e0vec n)) 0 • G)
  have hsmul : dval (G.mulVec (e0vec n)) 0 • G -
      Zmat n * (dval (G.mulVec (e0vec n)) 0 • G) * (Zmat n)ᵀ =
      dval (G.mulVec (e0vec n)) 0 • (G - Zmat n * G * (Zmat n)ᵀ) := by
    rw [Matrix.mul_smul, Matrix.smul_mul, smul_sub]
  rw [hsmul, gs_displacement hn τ G hTG hGT] at hrec
  rw [hrec]
  have hsplit : ∀ k ∈ Finset.range n,
      Zmat n ^ k *
          (Matrix.vecMulVec (G.mulVec (e0vec n)) (G.mulVec (e0vec n)) -
            Matrix.vecMulVec (shiftDown ((Jmat n).mulVec (G.mulVec (e0vec n))))
              (shiftDown ((Jmat n).mulVec (G.mulVec (e0vec n))))) *
          ((Zmat n)ᵀ) ^ k =
        Zmat n ^ k * Matrix.vecMulVec (G.mulVec (e0vec n)) (G.mulVec (e0vec n)) *
            ((Zmat n)ᵀ) ^ k -
          Zmat n ^ k *
            Matrix.vecMulVec (shiftDown ((Jmat n).mulVec (G.mulVec (e0vec n))))
              (shiftDown ((Jmat n).mulVec (G.mulVec (e0vec n)))) *
            ((Zmat n)ᵀ) ^ k := by
    intro k _
    noncomm_ring
  rw [Finset.sum_congr rfl hsplit, Finset.sum_sub_distrib,
    sum_Zpow_vecMulVec, sum_Zpow_vecMulVec]

/-! ### The Gauss expansion of the chirp product polynomial -/

theorem pseq_prod (q : ℂ) (N : ℕ) :
    pseq q N = ∏ j in Finset.range N, (q^(j+1) - 1) := by
  induction N with
  | zero => simp [pseq]
  | succ k ih => rw [Finset.prod_range_succ, ← ih, pseq]

theorem pseq_ne_zero (s : ℂ) (N : ℕ)
    (hroot : ∀ j, 1 ≤ j → j ≤ N → (s^(2:ℕ))^j ≠ 1) :
    pseq (s^(2:ℕ)) N ≠ 0 := by
  induction N with
  | zero => simp [pseq]
  | succ k ih =>
    rw [pseq]
    refine mul_ne_zero (ih (fun j h1 h2 => hroot j h1 (by omega))) ?_
    rw [sub_ne_zero]
    exact hroot (k+1) (by omega) (by omega)

theorem qcoef_zero_succ (s : ℂ) (hs : s ≠ 0) (N : ℕ)
    (hp : pseq (s^(2:ℕ)) (N+1) ≠ 0) (hp0 : pseq (s^(2:ℕ)) N ≠ 0) :
    qcoef s (N+1) 0 = (s^(2:ℕ))^(N+1) * qcoef s N 0 := by
  have hq : (s^(2:ℕ))^(N+1) = s ^ ((2*(N+1) : ℕ) : ℤ) := by
    rw [zpow_natCast, ← pow_mul]
  simp only [qcoef, Nat.sub_zero, pow_zero, one_mul]
  rw [show pseq (s^(2:ℕ)) 0 = 1 from rfl, mul_one, mul_one]
  rw [mul_div_assoc, div_self hp, mul_one, mul_div_assoc, div_self hp0, mul_one, hq,
    ← zpow_add₀ hs]
  congr 1
  push_cast
  ring

theorem qcoef_last_succ (s : ℂ) (N : ℕ)
    (hp : pseq (s^(2:ℕ)) (N+1) ≠ 0) (hp0 : pseq (s^(2:ℕ)) N ≠ 0) :
    qcoef s (N+1) (N+1) = - qcoef s N N := by
  simp only [qcoef, Nat.sub_self]
  rw [show pseq (s^(2:ℕ)) 0 = 1 from rfl, one_mul, one_mul]
  rw [show ((((N+1:ℕ)):ℤ)+1-((N+1:ℕ):ℤ))*((((N+1:ℕ)):ℤ)-((N+1:ℕ):ℤ)) = 0 from by
    push_cast
    ring]
  rw [show (((N:ℕ):ℤ)+1-((N:ℕ):ℤ))*(((N:ℕ):ℤ)-((N:ℕ):ℤ)) = 0 from by
    push_cast
    ring]
  rw [zpow_zero, mul_one, mul_one, mul_div_assoc, div_self hp, mul_one,
    mul_div_assoc, div_self hp0, mul_one, pow_succ]
  ring

theorem qcoef_pascal (s : ℂ) (hs : s ≠ 0) (N m' : ℕ) (hm2 : m' + 1 ≤ N)
    (hB : pseq (s^(2:ℕ)) (N-1-m') ≠ 0) (hC : pseq (s^(2:ℕ)) m' ≠ 0)
    (hf1 : (s^(2:ℕ))^(N-m') - 1 ≠ 0) (hf2 : (s^(2:ℕ))^(m'+1) - 1 ≠ 0) :
    qcoef s (N+1) (m'+1) = (s^(2:ℕ))^(N+1) * qcoef s N (m'+1) - qcoef s N m' := by
  have hq0 : (s:ℂ)^(2:ℕ) ≠ 0 := pow_ne_zero _ hs
  have e2 : pseq (s^(2:ℕ)) (N - m') =
      pseq (s^(2:ℕ)) (N-1-m') * ((s^(2:ℕ))^(N-m') - 1) := by
    rw [show N - m' = (N-1-m') + 1 from by omega, pseq,
      show N - 1 - m' + 1 = N - m' from by omega]
  have hQ : s ^ ((2:ℤ) * ((N:ℤ) - (m':ℤ))) = (s^(2:ℕ))^(N - m') := by
    rw [show (2:ℤ) * ((N:ℤ) - (m':ℤ)) = ((2*(N-m') : ℕ) : ℤ) from by
      push_cast [Nat.cast_sub (show m' ≤ N from by omega)]
      ring, zpow_natCast, pow_mul]
  have hEA : s ^ (((N:ℤ) + 1 + 1 - ((m':ℤ) + 1)) * ((N:ℤ) + 1 - ((m':ℤ) + 1))) =
      s ^ (((N:ℤ) + 1 - ((m':ℤ) + 1)) * ((N:ℤ) - ((m':ℤ) + 1))) * (s^(2:ℕ))^(N - m') := by
    rw [← hQ, ← zpow_add₀ hs]
    congr 1
    ring
  have hEC : s ^ (((N:ℤ) + 1 - (m':ℤ)) * ((N:ℤ) - (m':ℤ))) =
      s ^ (((N:ℤ) + 1 - ((m':ℤ) + 1)) * ((N:ℤ) - ((m':ℤ) + 1))) * (s^(2:ℕ))^(N - m') := by
    rw [← hQ, ← zpow_add₀ hs]
    congr 1
    ring
  have hq3 : (s^(2:ℕ))^(N+1) = (s^(2:ℕ))^(m'+1) * (s^(2:ℕ))^(N - m') := by
    rw [← pow_add]
    congr 1
    omega
  simp only [qcoef]
  push_cast
  rw [show N - (m'+1) = N - 1 - m' from by omega]
  rw [show pseq (s^(2:ℕ)) (N+1) = pseq (s^(2:ℕ)) N * ((s^(2:ℕ))^(N+1) - 1) from rfl]
  rw [show pseq (s^(2:ℕ)) (m'+1) = pseq (s^(2:ℕ)) m' * ((s^(2:ℕ))^(m'+1) - 1) from rfl]
  rw [e2, hEA, hEC, hq3, pow_succ ((-1):ℂ) m']
  field_simp
  ring

theorem qbinom_expansion (s : ℂ) (hs : s ≠ 0) (N : ℕ)
    (hroot : ∀ j, 1 ≤ j → j ≤ N → (s^(2:ℕ))^j ≠ 1) (z : ℂ) :
    ∑ m in Finset.range (N+1), qcoef s N m * z^m =
      ∏ j in Finset.range N, ((s^(2:ℕ))^(j+1) - z) := by
  induction N with
  | zero =>
    norm_num [qcoef, pseq]
  | succ N ih =>
    have hroot' : ∀ j, 1 ≤ j → j ≤ N → (s^(2:ℕ))^j ≠ 1 :=
      fun j h1 h2 => hroot j h1 (by omega)
    have IH := ih hroot'
    have hpN : pseq (s^(2:ℕ)) N ≠ 0 := pseq_ne_zero s N hroot'
    have hpN1 : pseq (s^(2:ℕ)) (N+1) ≠ 0 := pseq_ne_zero s (N+1) hroot
    rw [Finset.prod_range_succ, ← IH]
    rw [sum_range_shift (fun m => qcoef s (N+1) m * z^m) (N+2) (by omega),
      show N+2-1 = N+1 from by omega]
    rw [Finset.sum_range_succ (fun m => qcoef s (N+1) (m+1) * z^(m+1)) N]
    rw [qcoef_zero_succ s hs N hpN1 hpN, qcoef_last_succ s N hpN1 hpN]
    have hstep : ∀ m ∈ Finset.range N, qcoef s (N+1) (m+1) * z^(m+1) =
        (s^(2:ℕ))^(N+1) * (qcoef s N (m+1) * z^(m+1)) - qcoef s N m * z^(m+1) := by
      intro m hm
      have hmN := Finset.mem_range.mp hm
      rw [qcoef_pascal s hs N m (by omega)
        (pseq_ne_zero s (N-1-m) (fun j h1 h2 => hroot' j h1 (by omega)))
        (pseq_ne_zero s m (fun j h1 h2 => hroot' j h1 (by omega)))
        (sub_ne_zero.mpr (hroot (N-m) (by omega) (by omega)))
        (sub_ne_zero.mpr (hroot (m+1) (by omega) (by omega)))]
      ring
    rw [Finset.sum_congr rfl hstep, Finset.sum_sub_distrib, ← Finset.mul_sum]
    have hR1 : (∑ m in Finset.range (N+1), qcoef s N m * z^m) * ((s^(2:ℕ))^(N+1) - z) =
        (s^(2:ℕ))^(N+1) * (∑ m in Finset.range (N+1), qcoef s N m * z^m) -
          (∑ m in Finset.range (N+1), qcoef s N m * z^(m+1)) := by
      rw [mul_sub, mul_comm ((∑ m in Finset.range (N+1), qcoef s N m * z^m)) ((s^(2:ℕ))^(N+1))]
      congr 1
      rw [Finset.sum_mul]
      apply Finset.sum_congr rfl
      intro m _
      ring
    rw [hR1]
    rw [sum_range_shift (fun m => qcoef s N m * z^m) (N+1) (by omega),
      show N+1-1 = N from by omega]
    rw [Finset.sum_range_succ (fun m => qcoef s N m * z^(m+1)) N]
    ring

theorem natdist_sq (k m : ℕ) : ((Nat.dist k m : ℕ) : ℤ)^2 = ((k:ℤ) - m)^2 := by
  rcases Nat.le_total k m with h | h
  · rw [Nat.dist_eq_sub_of_le h]
    push_cast [h]
    ring
  · rw [Nat.dist_eq_sub_of_le_right h]
    push_cast [h]
    ring

theorem tau_u_summand (s : ℂ) (hs : s ≠ 0) (n : ℕ) (hn : 0 < n)
    (hpn : pseq (s^(2:ℕ)) (n-1) ≠ 0) (k m : ℕ) (hk : k < n) (hm : m < n) :
    tauFn s (Nat.dist k m) * uIntFn s n m =
      s ^ (-((k:ℤ)^2)) / pseq (s^(2:ℕ)) (n-1) *
        (qcoef s (n-1) m * (((s^(2:ℕ))^k)^m)) := by
  unfold tauFn uIntFn qcoef
  rw [show n - m - 1 = n - 1 - m from by omega,
    show (((n-1:ℕ)):ℤ) = (n:ℤ) - 1 from by omega]
  have hq : ((((s^(2:ℕ))^k)^m) : ℂ) = s ^ ((2:ℤ)*(k:ℤ)*(m:ℤ)) := by
    rw [← pow_mul, ← pow_mul, ← zpow_natCast s (2*(k*m))]
    congr 1
    push_cast
    ring
  rw [hq]
  set D := pseq (s^(2:ℕ)) (n-1-m) * pseq (s^(2:ℕ)) m with hD
  set pA := pseq (s^(2:ℕ)) (n-1) with hpA
  set E1 := 2*(m:ℤ)^2 - (2*(n:ℤ)-1)*(m:ℤ) + (n:ℤ)*((n:ℤ)-1) with hE1
  set E2 := ((n:ℤ) - 1 + 1 - (m:ℤ))*((n:ℤ) - 1 - (m:ℤ)) with hE2
  set d2 := -((Nat.dist k m : ℕ):ℤ)^2 with hd2
  have key : s ^ d2 * s ^ E1 = s ^ (-((k:ℤ)^2)) * s ^ ((2:ℤ)*(k:ℤ)*(m:ℤ)) * s ^ E2 := by
    rw [← zpow_add₀ hs, ← zpow_add₀ hs, ← zpow_add₀ hs]
    congr 1
    have hd := natdist_sq k m
    rw [hd2, hE1, hE2]
    linear_combination -hd
  have step1 : s ^ d2 * ((-1:ℂ)^m * (s ^ E1 / D)) = (-1:ℂ)^m * (s ^ d2 * s ^ E1) / D := by
    ring
  rw [step1, key]
  have hsplit : s ^ (-((k:ℤ)^2)) / pA *
      ((-1:ℂ)^m * s ^ E2 * pA / D * s ^ ((2:ℤ)*(k:ℤ)*(m:ℤ))) =
      (-1:ℂ)^m * (s ^ (-((k:ℤ)^2)) * s ^ ((2:ℤ)*(k:ℤ)*(m:ℤ)) * s ^ E2) / D * (pA / pA) := by
    ring
  rw [hsplit, div_self hpn, mul_one]

theorem Tmat_mulVec_u (s : ℂ) (hs : s ≠ 0) (n : ℕ) (hn : 0 < n)
    (hroot : ∀ j, 1 ≤ j → j ≤ n - 1 → (s^(2:ℕ))^j ≠ 1) :
    (Tmat n (tauFn s)).mulVec (fun k : Fin n => uIntFn s n (k:ℕ)) = e0vec n := by
  have hpn : pseq (s^(2:ℕ)) (n-1) ≠ 0 := pseq_ne_zero s (n-1) hroot
  funext k
  have hkLt := k.isLt
  rw [Tmat_mulVec_apply]
  have hterm : ∀ m ∈ Finset.range n,
      tauFn s (Nat.dist (k:ℕ) m) * dval (fun k : Fin n => uIntFn s n (k:ℕ)) m =
      s ^ (-(((k:ℕ):ℤ)^2)) / pseq (s^(2:ℕ)) (n-1) *
        (qcoef s (n-1) m * (((s^(2:ℕ))^(k:ℕ))^m)) := by
    intro m hm
    have hm' := Finset.mem_range.mp hm
    rw [dval_eq _ _ hm']
    exact tau_u_summand s hs n hn hpn (k:ℕ) m hkLt hm'
  rw [Finset.sum_congr rfl hterm, ← Finset.mul_sum]
  rw [show Finset.range n = Finset.range ((n-1)+1) from by rw [Nat.sub_add_cancel hn]]
  rw [qbinom_expansion s hs (n-1) hroot (((s^(2:ℕ))^(k:ℕ)))]
  by_cases hk0 : (k:ℕ) = 0
  · rw [show ((s^(2:ℕ))^(k:ℕ)) = 1 from by rw [hk0, pow_zero]]
    rw [show (∏ j in Finset.range (n-1), ((s^(2:ℕ))^(j+1) - 1)) =
        pseq (s^(2:ℕ)) (n-1) from (pseq_prod _ _).symm]
    rw [show s ^ (-(((k:ℕ):ℤ)^2)) = 1 from by
      rw [show -(((k:ℕ):ℤ)^2) = 0 from by rw [hk0]; norm_num, zpow_zero]]
    rw [show e0vec n k = 1 from if_pos hk0]
    field_simp
  · rw [Finset.prod_eq_zero
      (show (k:ℕ) - 1 ∈ Finset.range (n-1) from Finset.mem_range.mpr (by omega))
      (by rw [show (k:ℕ) - 1 + 1 = (k:ℕ) from by omega, sub_self])]
    rw [show e0vec n k = 0 from if_neg hk0]
    ring

theorem Tmat_eq_DVD (s : ℂ) (hs : s ≠ 0) (n : ℕ) :
    Tmat n (tauFn s) =
      Matrix.diagonal (fun i : Fin n => s ^ (-(((i:ℕ):ℤ)^2))) *
        Matrix.vandermonde (fun i : Fin n => (s^(2:ℕ))^(i:ℕ)) *
        Matrix.diagonal (fun i : Fin n => s ^ (-(((i:ℕ):ℤ)^2))) := by
  ext i j
  rw [Matrix.mul_diagonal, Matrix.diagonal_mul]
  show tauFn s (Nat.dist i j) =
    s ^ (-(((i:ℕ):ℤ)^2)) * ((s^(2:ℕ))^(i:ℕ)) ^ (j:ℕ) * s ^ (-(((j:ℕ):ℤ)^2))
  have hq : ((((s^(2:ℕ))^(i:ℕ))^(j:ℕ)) : ℂ) = s ^ ((2:ℤ)*((i:ℕ):ℤ)*((j:ℕ):ℤ)) := by
    rw [← pow_mul, ← pow_mul, ← zpow_natCast s (2*((i:ℕ)*(j:ℕ)))]
    congr 1
    push_cast
    ring
  rw [hq, tauFn]
  rw [← zpow_add₀ hs, ← zpow_add₀ hs]
  congr 1
  have hd := natdist_sq (i:ℕ) (j:ℕ)
  linear_combination -hd

theorem Tmat_det_isUnit (s : ℂ) (hs : s ≠ 0) (n : ℕ)
    (hroot : ∀ j, 1 ≤ j → j ≤ n - 1 → (s^(2:ℕ))^j ≠ 1) :
    IsUnit (Tmat n (tauFn s)).det := by
  rw [isUnit_iff_ne_zero, Tmat_eq_DVD s hs n, Matrix.det_mul, Matrix.det_mul,
    Matrix.det_diagonal, Matrix.det_vandermonde]
  have hd : (∏ i : Fin n, s ^ (-(((i:ℕ):ℤ)^2))) ≠ 0 := by
    apply Finset.prod_ne_zero_iff.mpr
    intro i _
    exact zpow_ne_zero _ hs
  have hv : (∏ i : Fin n, ∏ j in Finset.Ioi i,
      ((s^(2:ℕ))^(j:ℕ) - (s^(2:ℕ))^(i:ℕ))) ≠ 0 := by
    apply Finset.prod_ne_zero_iff.mpr
    intro i _
    apply Finset.prod_ne_zero_iff.mpr
    intro j hj
    have hij' : i < j := Finset.mem_Ioi.mp hj
    have hij : (i:ℕ) < (j:ℕ) := hij'
    have hjn := j.isLt
    rw [sub_ne_zero]
    intro heq
    have hsplit : ((s^(2:ℕ))^(j:ℕ) : ℂ) = (s^(2:ℕ))^(i:ℕ) * (s^(2:ℕ))^((j:ℕ)-(i:ℕ)) := by
      rw [← pow_add]
      congr 1
      omega
    have hqi : ((s^(2:ℕ))^(i:ℕ) : ℂ) ≠ 0 := pow_ne_zero _ (pow_ne_zero _ hs)
    have : ((s^(2:ℕ))^((j:ℕ)-(i:ℕ)) : ℂ) = 1 := by
      have h2 : (s^(2:ℕ))^(i:ℕ) * (s^(2:ℕ))^((j:ℕ)-(i:ℕ)) =
          (s^(2:ℕ))^(i:ℕ) * 1 := by
        rw [mul_one, ← hsplit, heq]
      exact mul_left_cancel₀ hqi h2
    exact hroot ((j:ℕ)-(i:ℕ)) (by omega) (by omega) this
  exact mul_ne_zero (mul_ne_zero hd hv) hd

theorem uIntFn_zero (s : ℂ) (n : ℕ) :
    uIntFn s n 0 = s ^ ((2*(0:ℤ)^2 - (2*(n:ℤ)-1)*(0:ℤ) + (n:ℤ)*((n:ℤ)-1))) /
      pseq (s^(2:ℕ)) (n-1) := by
  unfold uIntFn
  rw [show n - 0 - 1 = n - 1 from by omega]
  rw [show pseq (s^(2:ℕ)) 0 = 1 from rfl, mul_one, pow_zero, one_mul]
  norm_num

theorem uIntFn_zero_ne_zero (s : ℂ) (hs : s ≠ 0) (n : ℕ)
    (hroot : ∀ j, 1 ≤ j → j ≤ n - 1 → (s^(2:ℕ))^j ≠ 1) :
    uIntFn s n 0 ≠ 0 := by
  rw [uIntFn_zero]
  exact div_ne_zero (zpow_ne_zero _ hs) (pseq_ne_zero s (n-1) hroot)

theorem gs_action (s : ℂ) (hs : s ≠ 0) (n : ℕ) (hn : 0 < n)
    (hroot : ∀ j, 1 ≤ j → j ≤ n - 1 → (s^(2:ℕ))^j ≠ 1) (w : Fin n → ℂ) :
    (LmatV (fun k : Fin n => uIntFn s n (k:ℕ)) *
        (LmatV (fun k : Fin n => uIntFn s n (k:ℕ)))ᵀ -
      LmatV (shiftDown ((Jmat n).mulVec (fun k : Fin n => uIntFn s n (k:ℕ)))) *
        (LmatV (shiftDown ((Jmat n).mulVec (fun k : Fin n => uIntFn s n (k:ℕ)))))ᵀ).mulVec
      ((Tmat n (tauFn s)).mulVec w) = (uIntFn s n 0) • w := by
  have hdet := Tmat_det_isUnit s hs n hroot
  have hTG := Matrix.mul_nonsing_inv _ hdet
  have hGT := Matrix.nonsing_inv_mul _ hdet
  have ha : (Tmat n (tauFn s))⁻¹.mulVec (e0vec n) =
      (fun k : Fin n => uIntFn s n (k:ℕ)) := by
    rw [← Tmat_mulVec_u s hs n hn hroot, Matrix.mulVec_mulVec, hGT, Matrix.one_mulVec]
  have hgs := gs_formula hn (tauFn s) (Tmat n (tauFn s))⁻¹ hTG hGT
  rw [ha] at hgs
  have ha0 : dval (fun k : Fin n => uIntFn s n (k:ℕ)) 0 = uIntFn s n 0 := by
    rw [dval_eq _ _ hn]
  rw [ha0] at hgs
  rw [← hgs, Matrix.smul_mulVec_assoc, Matrix.mulVec_mulVec, hGT, Matrix.one_mulVec]

/-! ### Bridging the list-level dense products to structured matrices -/

theorem toeplitzDense_getD_mulVec {n : ℕ} (r c x : List ℂ)
    (hr : r.length = n) (hc : c.length = n) (k : Fin n) :
    (toeplitzDense r c x).getD (k:ℕ) 0 =
      (Matrix.of fun i j : Fin n =>
        if (j:ℕ) ≤ (i:ℕ) then c.getD ((i:ℕ)-(j:ℕ)) 0 else r.getD ((j:ℕ)-(i:ℕ)) 0).mulVec
        (listToVec n x) k := by
  simp only [toeplitzDense, hr, hc]
  rw [getD_map_range_zero _ _ _ k.isLt]
  rw [show (Matrix.of fun i j : Fin n =>
        if (j:ℕ) ≤ (i:ℕ) then c.getD ((i:ℕ)-(j:ℕ)) 0 else r.getD ((j:ℕ)-(i:ℕ)) 0).mulVec
        (listToVec n x) k =
      ∑ j : Fin n, (fun (m : ℕ) =>
        (if m ≤ (k:ℕ) then c.getD ((k:ℕ)-m) 0 else r.getD (m-(k:ℕ)) 0) * x.getD m 0) (j:ℕ)
    from by simp [Matrix.mulVec, Matrix.dotProduct, listToVec]]
  exact (Fin.sum_univ_eq_sum_range
    (fun m => (if m ≤ (k:ℕ) then c.getD ((k:ℕ)-m) 0 else r.getD (m-(k:ℕ)) 0) * x.getD m 0)
    n).symm

theorem ulist_getD (W : ℂ) (n k : ℕ) (h : k < n) :
    (ulist W n).getD k 0 = useqFn W n k := by
  rw [ulist, getD_map_range_zero _ _ _ h]

theorem utilList_getD (W : ℂ) (n : ℕ) (hn : 0 < n) (m : ℕ) (hm : m < n) :
    (utilList W n).getD m 0 = if m = 0 then useqFn W n 0 else 0 := by
  have h1 : (ulist W n).take 1 = [useqFn W n 0] := by
    rw [ulist, map_range_take _ _ _ hn]
    rfl
  rw [utilList, h1]
  cases m with
  | zero => rfl
  | succ m' =>
    rw [if_neg (by omega)]
    show (List.replicate (n-1) (0:ℂ)).getD m' 0 = 0
    exact getD_replicate_zero _ _

theorem uhatList_getD (W : ℂ) (n : ℕ) (hn : 0 < n) (m : ℕ) (hm : m < n) :
    (uhatList W n).getD m 0 = if m = 0 then 0 else useqFn W n (n - m) := by
  cases m with
  | zero => rfl
  | succ m' =>
    rw [if_neg (by omega)]
    show (((ulist W n).drop 1).reverse).getD m' 0 = useqFn W n (n - (m'+1))
    have hlen : ((ulist W n).drop 1).length = n - 1 := by
      simp [ulist]
    rw [getD_reverse_zero _ _ (by omega), hlen, getD_drop_zero]
    rw [ulist_getD _ _ _ (by omega)]
    congr 1
    omega

theorem denseMat_util_ulist (W : ℂ) (n : ℕ) (hn : 0 < n) :
    (Matrix.of fun i j : Fin n =>
      if (j:ℕ) ≤ (i:ℕ) then (ulist W n).getD ((i:ℕ)-(j:ℕ)) 0
      else (utilList W n).getD ((j:ℕ)-(i:ℕ)) 0) =
    LmatV (fun k : Fin n => useqFn W n (k:ℕ)) := by
  ext i j
  show (if (j:ℕ) ≤ (i:ℕ) then (ulist W n).getD ((i:ℕ)-(j:ℕ)) 0
      else (utilList W n).getD ((j:ℕ)-(i:ℕ)) 0) = LmatV _ i j
  rw [LmatV]
  by_cases h : (j:ℕ) ≤ (i:ℕ)
  · rw [if_pos h]
    rw [show (Matrix.of _ : Matrix (Fin n) (Fin n) ℂ) i j =
        (fun k : Fin n => useqFn W n (k:ℕ)) ⟨(i:ℕ)-(j:ℕ), by have := i.isLt; omega⟩
      from dif_pos h]
    exact ulist_getD _ _ _ (by have := i.isLt; omega)
  · rw [if_neg h]
    rw [show (Matrix.of _ : Matrix (Fin n) (Fin n) ℂ) i j = 0 from dif_neg h]
    rw [utilList_getD _ _ hn _ (by have := j.isLt; omega)]
    rw [if_neg (by omega)]

theorem denseMat_ulist_util (W : ℂ) (n : ℕ) (hn : 0 < n) :
    (Matrix.of fun i j : Fin n =>
      if (j:ℕ) ≤ (i:ℕ) then (utilList W n).getD ((i:ℕ)-(j:ℕ)) 0
      else (ulist W n).getD ((j:ℕ)-(i:ℕ)) 0) =
    (LmatV (fun k : Fin n => useqFn W n (k:ℕ)))ᵀ := by
  ext i j
  rw [Matrix.transpose_apply]
  show (if (j:ℕ) ≤ (i:ℕ) then (utilList W n).getD ((i:ℕ)-(j:ℕ)) 0
      else (ulist W n).getD ((j:ℕ)-(i:ℕ)) 0) =
    LmatV (fun k : Fin n => useqFn W n (k:ℕ)) j i
  rw [LmatV]
  by_cases h : (j:ℕ) ≤ (i:ℕ)
  · rw [if_pos h]
    rw [utilList_getD _ _ hn _ (by have := i.isLt; omega)]
    by_cases hij : (i:ℕ) = (j:ℕ)
    · rw [if_pos (by omega)]
      rw [show (Matrix.of _ : Matrix (Fin n) (Fin n) ℂ) j i =
          (fun k : Fin n => useqFn W n (k:ℕ)) ⟨(j:ℕ)-(i:ℕ), by have := j.isLt; omega⟩
        from dif_pos (by omega)]
      simp only [Fin.val_mk]
      rw [show (j:ℕ) - (i:ℕ) = 0 from by omega]
    · rw [if_neg (by omega)]
      rw [show (Matrix.of _ : Matrix (Fin n) (Fin n) ℂ) j i = 0 from dif_neg (by omega)]
  · rw [if_neg h]
    rw [show (Matrix.of _ : Matrix (Fin n) (Fin n) ℂ) j i =
        (fun k : Fin n => useqFn W n (k:ℕ)) ⟨(j:ℕ)-(i:ℕ), by have := j.isLt; omega⟩
      from dif_pos (by omega)]
    exact ulist_getD _ _ _ (by have := j.isLt; omega)

theorem uhatList_getD_vvec (W : ℂ) (n : ℕ) (hn : 0 < n) (m : ℕ) (hm : m < n) :
    (uhatList W n).getD m 0 =
      shiftDown ((Jmat n).mulVec (fun k : Fin n => useqFn W n (k:ℕ))) ⟨m, hm⟩ := by
  rw [uhatList_getD _ _ hn _ hm, shiftDown]
  by_cases h : m = 0
  · rw [if_pos h, dif_pos (by simpa using h)]
  · rw [if_neg h, dif_neg (by simpa using h)]
    rw [Jmat_mulVec hn]
    simp only [Fin.val_mk]
    congr 1
    omega

theorem denseMat_zero_uhat (W : ℂ) (n : ℕ) (hn : 0 < n) :
    (Matrix.of fun i j : Fin n =>
      if (j:ℕ) ≤ (i:ℕ) then (uhatList W n).getD ((i:ℕ)-(j:ℕ)) 0
      else (List.replicate n (0:ℂ)).getD ((j:ℕ)-(i:ℕ)) 0) =
    LmatV (shiftDown ((Jmat n).mulVec (fun k : Fin n => useqFn W n (k:ℕ)))) := by
  ext i j
  show (if (j:ℕ) ≤ (i:ℕ) then (uhatList W n).getD ((i:ℕ)-(j:ℕ)) 0
      else (List.replicate n (0:ℂ)).getD ((j:ℕ)-(i:ℕ)) 0) = LmatV _ i j
  rw [LmatV]
  by_cases h : (j:ℕ) ≤ (i:ℕ)
  · rw [if_pos h]
    rw [show (Matrix.of _ : Matrix (Fin n) (Fin n) ℂ) i j =
        shiftDown ((Jmat n).mulVec (fun k : Fin n => useqFn W n (k:ℕ)))
          ⟨(i:ℕ)-(j:ℕ), by have := i.isLt; omega⟩
      from dif_pos h]
    exact uhatList_getD_vvec _ _ hn _ (by have := i.isLt; omega)
  · rw [if_neg h]
    rw [show (Matrix.of _ : Matrix (Fin n) (Fin n) ℂ) i j = 0 from dif_neg h]
    exact getD_replicate_zero _ _

theorem denseMat_uhat_zero (W : ℂ) (n : ℕ) (hn : 0 < n) :
    (Matrix.of fun i j : Fin n =>
      if (j:ℕ) ≤ (i:ℕ) then (List.replicate n (0:ℂ)).getD ((i:ℕ)-(j:ℕ)) 0
      else (uhatList W n).getD ((j:ℕ)-(i:ℕ)) 0) =
    (LmatV (shiftDown ((Jmat n).mulVec (fun k : Fin n => useqFn W n (k:ℕ)))))ᵀ := by
  ext i j
  rw [Matrix.transpose_apply]
  show (if (j:ℕ) ≤ (i:ℕ) then (List.replicate n (0:ℂ)).getD ((i:ℕ)-(j:ℕ)) 0
      else (uhatList W n).getD ((j:ℕ)-(i:ℕ)) 0) =
    LmatV (shiftDown ((Jmat n).mulVec (fun k : Fin n => useqFn W n (k:ℕ)))) j i
  rw [LmatV]
  by_cases h : (j:ℕ) ≤ (i:ℕ)
  · rw [if_pos h]
    by_cases hij : (i:ℕ) = (j:ℕ)
    · rw [show (Matrix.of _ : Matrix (Fin n) (Fin n) ℂ) j i =
          shiftDown ((Jmat n).mulVec (fun k : Fin n => useqFn W n (k:ℕ)))
            ⟨(j:ℕ)-(i:ℕ), by have := j.isLt; omega⟩
        from dif_pos (by omega)]
      rw [← uhatList_getD_vvec W n hn ((j:ℕ)-(i:ℕ)) (by have := j.isLt; omega)]
      rw [uhatList_getD _ _ hn _ (by have := j.isLt; omega), if_pos (by omega)]
      exact getD_replicate_zero _ _
    · rw [show (Matrix.of _ : Matrix (Fin n) (Fin n) ℂ) j i = 0 from dif_neg (by omega)]
      exact getD_replicate_zero _ _
  · rw [if_neg h]
    rw [show (Matrix.of _ : Matrix (Fin n) (Fin n) ℂ) j i =
        shiftDown ((Jmat n).mulVec (fun k : Fin n => useqFn W n (k:ℕ)))
          ⟨(j:ℕ)-(i:ℕ), by have := j.isLt; omega⟩
      from dif_pos (by omega)]
    exact uhatList_getD_vvec _ _ hn _ (by have := j.isLt; omega)

theorem useqFn_eq_uIntFn (W : ℂ) (n k : ℕ) : useqFn W n k = uIntFn (sqrtW W) n k := by
  rw [useqFn, uIntFn, sqrtW_sq]
  congr 2
  rw [show (2*(k:ℂ)^2 - (2*(n:ℂ)-1)*(k:ℂ) + (n:ℂ)*((n:ℂ)-1))/2 =
      (((2*(k:ℤ)^2 - (2*(n:ℤ)-1)*(k:ℤ) + (n:ℤ)*((n:ℤ)-1)) : ℤ):ℂ)/2 from by
    push_cast; ring]
  exact cpow_int_half W _

theorem chirp_entry_inv (s Wb B xj : ℂ) (hs : s ≠ 0) (hW2 : s^(2:ℕ) = Wb)
    (d : ℤ) (j k : ℕ) (hd : d^2 = ((k:ℤ) - j)^2) :
    s ^ (-(k:ℤ)^2) * (xj * B * Wb ^ (j * k)) = s ^ (-d^2) * (s ^ ((j:ℤ)^2) * B * xj) := by
  subst hW2
  have h3 : ((s^(2:ℕ)) : ℂ) ^ (j*k : ℕ) = s ^ ((2:ℤ) * ((j*k : ℕ):ℤ)) := by
    rw [← pow_mul]
    rw [show (2:ℤ) * ((j*k : ℕ):ℤ) = ((2*(j*k) : ℕ):ℤ) from by push_cast; ring]
    rw [zpow_natCast]
  have h1 : s ^ (-(k:ℤ)^2) * (xj * B * s ^ ((2:ℤ) * ((j*k : ℕ):ℤ))) =
      s ^ (-(k:ℤ)^2 + (2:ℤ)*((j*k : ℕ):ℤ)) * (B * xj) := by
    rw [zpow_add₀ hs]
    ring
  have h2 : s ^ (-d^2) * (s ^ ((j:ℤ)^2) * B * xj) =
      s ^ (-d^2 + (j:ℤ)^2) * (B * xj) := by
    rw [zpow_add₀ hs]
    ring
  rw [h3, h1, h2]
  rw [show -(k:ℤ)^2 + (2:ℤ)*((j*k : ℕ):ℤ) = -d^2 + (j:ℤ)^2 from by
    rw [hd]; push_cast; ring]

theorem icztPre_czt_getD (x : List ℂ) (W A : ℂ) (hW : W ≠ 0) (k : Fin x.length) :
    (icztPre (cztSpec x x.length W A) x.length W).getD (k:ℕ) 0 =
      (Tmat x.length (tauFn (sqrtW W))).mulVec (chirpVec (sqrtW W) A x.length x) k := by
  have hs := sqrtW_ne_zero W hW
  rw [icztPre, getD_map_range_zero _ _ _ k.isLt]
  rw [cztSpec, getD_map_range_zero _ _ _ k.isLt]
  rw [Tmat_mulVec_apply]
  rw [cpow_neg_natsq_half, Finset.mul_sum]
  apply Finset.sum_congr rfl
  intro j hj
  have hj' : j < x.length := Finset.mem_range.mp hj
  rw [dval_eq _ _ hj']
  show sqrtW W ^ (-(k:ℤ)^2) * (x.getD j 0 * A ^ (-(j:ℤ)) * W ^ (j * (k:ℕ))) =
    tauFn (sqrtW W) (Nat.dist (k:ℕ) j) * chirpVec (sqrtW W) A x.length x ⟨j, hj'⟩
  rw [tauFn, chirpVec]
  simp only [Fin.val_mk]
  exact chirp_entry_inv (sqrtW W) W (A ^ (-(j:ℤ))) (x.getD j 0) hs (sqrtW_sq W)
    _ j (k:ℕ) (by
      rcases Nat.le_total j (k:ℕ) with hle | hle
      · rw [Nat.dist_eq_sub_of_le_right hle]
        rw [show (((k:ℕ) - j : ℕ):ℤ) = ((k:ℕ):ℤ) - j from by omega]
      · rw [Nat.dist_eq_sub_of_le hle]
        rw [show ((j - (k:ℕ) : ℕ):ℤ) = (j:ℤ) - ((k:ℕ):ℤ) from by omega]
        ring)

theorem roundtrip_core (x : List ℂ) (W A : ℂ) (hx : x.length ≠ 0) (hW : W ≠ 0) (hA : A ≠ 0)
    (hroot : ∀ k, 1 ≤ k → k ≤ x.length - 1 → W ^ k ≠ 1) :
    iczt (cztSpec x x.length W A) x.length W A = .ok x := by
  have hn : 0 < x.length := Nat.pos_of_ne_zero hx
  have hs : sqrtW W ≠ 0 := sqrtW_ne_zero W hW
  have hroot' : ∀ j, 1 ≤ j → j ≤ x.length - 1 → ((sqrtW W)^(2:ℕ))^j ≠ 1 := by
    intro j h1 h2
    rw [sqrtW_sq]
    exact hroot j h1 h2
  have hlen : (cztSpec x x.length W A).length = x.length := by simp [cztSpec]
  rw [iczt_eq_dense _ _ _ _ hlen hx]
  congr 1
  refine (map_range_congr x.length _ _ ?_).trans (map_range_getD_self x)
  intro k hk
  have huv : (fun j : Fin x.length => useqFn W x.length (j:ℕ)) =
      (fun j : Fin x.length => uIntFn (sqrtW W) x.length (j:ℕ)) :=
    funext fun j => useqFn_eq_uIntFn W x.length (j:ℕ)
  have hTw : listToVec x.length (icztPre (cztSpec x x.length W A) x.length W) =
      (Tmat x.length (tauFn (sqrtW W))).mulVec (chirpVec (sqrtW W) A x.length x) :=
    funext fun j => icztPre_czt_getD x W A hW j
  have hxpp_inner : listToVec x.length (toeplitzDense (ulist W x.length) (utilList W x.length)
        (icztPre (cztSpec x x.length W A) x.length W)) =
      ((LmatV (fun j : Fin x.length => uIntFn (sqrtW W) x.length (j:ℕ)))ᵀ).mulVec
        ((Tmat x.length (tauFn (sqrtW W))).mulVec (chirpVec (sqrtW W) A x.length x)) := by
    funext j
    show (toeplitzDense _ _ _).getD ((j : Fin x.length):ℕ) 0 = _
    rw [toeplitzDense_getD_mulVec _ _ _ (ulist_length W x.length)
      (utilList_length W x.length hx) j]
    rw [denseMat_ulist_util W x.length hn, hTw, huv]
  have hxp_inner : listToVec x.length (toeplitzDense (uhatList W x.length)
        (List.replicate x.length (0:ℂ)) (icztPre (cztSpec x x.length W A) x.length W)) =
      ((LmatV (shiftDown ((Jmat x.length).mulVec
          (fun j : Fin x.length => uIntFn (sqrtW W) x.length (j:ℕ)))))ᵀ).mulVec
        ((Tmat x.length (tauFn (sqrtW W))).mulVec (chirpVec (sqrtW W) A x.length x)) := by
    funext j
    show (toeplitzDense _ _ _).getD ((j : Fin x.length):ℕ) 0 = _
    rw [toeplitzDense_getD_mulVec _ _ _ (uhatList_length W x.length hx)
      (by simp) j]
    rw [denseMat_uhat_zero W x.length hn, hTw, huv]
  have hxpp : (toeplitzDense (utilList W x.length) (ulist W x.length)
        (toeplitzDense (ulist W x.length) (utilList W x.length)
          (icztPre (cztSpec x x.length W A) x.length W))).getD k 0 =
      ((LmatV (fun j : Fin x.length => uIntFn (sqrtW W) x.length (j:ℕ)) *
        (LmatV (fun j : Fin x.length => uIntFn (sqrtW W) x.length (j:ℕ)))ᵀ).mulVec
        ((Tmat x.length (tauFn (sqrtW W))).mulVec (chirpVec (sqrtW W) A x.length x)))
        ⟨k, hk⟩ := by
    rw [show (toeplitzDense (utilList W x.length) (ulist W x.length)
        (toeplitzDense (ulist W x.length) (utilList W x.length)
          (icztPre (cztSpec x x.length W A) x.length W))).getD k 0 =
      (toeplitzDense (utilList W x.length) (ulist W x.length)
        (toeplitzDense (ulist W x.length) (utilList W x.length)
          (icztPre (cztSpec x x.length W A) x.length W))).getD
        ((⟨k, hk⟩ : Fin x.length):ℕ) 0 from rfl]
    rw [toeplitzDense_getD_mulVec _ _ _ (utilList_length W x.length hx)
      (ulist_length W x.length) ⟨k, hk⟩]
    rw [denseMat_util_ulist W x.length hn, huv, hxpp_inner, Matrix.mulVec_mulVec]
  have hxp : (toeplitzDense (List.replicate x.length (0:ℂ)) (uhatList W x.length)
        (toeplitzDense (uhatList W x.length) (List.replicate x.length (0:ℂ))
          (icztPre (cztSpec x x.length W A) x.length W))).getD k 0 =
      ((LmatV (shiftDown ((Jmat x.length).mulVec
          (fun j : Fin x.length => uIntFn (sqrtW W) x.length (j:ℕ)))) *
        (LmatV (shiftDown ((Jmat x.length).mulVec
          (fun j : Fin x.length => uIntFn (sqrtW W) x.length (j:ℕ)))))ᵀ).mulVec
        ((Tmat x.length (tauFn (sqrtW W))).mulVec (chirpVec (sqrtW W) A x.length x)))
        ⟨k, hk⟩ := by
    rw [show (toeplitzDense (List.replicate x.length (0:ℂ)) (uhatList W x.length)
        (toeplitzDense (uhatList W x.length) (List.replicate x.length (0:ℂ))
          (icztPre (cztSpec x x.length W A) x.length W))).getD k 0 =
      (toeplitzDense (List.replicate x.length (0:ℂ)) (uhatList W x.length)
        (toeplitzDense (uhatList W x.length) (List.replicate x.length (0:ℂ))
          (icztPre (cztSpec x x.length W A) x.length W))).getD
        ((⟨k, hk⟩ : Fin x.length):ℕ) 0 from rfl]
    rw [toeplitzDense_getD_mulVec _ _ _ (by simp)
      (uhatList_length W x.length hx) ⟨k, hk⟩]
    rw [denseMat_zero_uhat W x.length hn, huv, hxp_inner, Matrix.mulVec_mulVec]
  rw [hxpp, hxp]
  have hgs := gs_action (sqrtW W) hs x.length hn hroot' (chirpVec (sqrtW W) A x.length x)
  have hsub : ((LmatV (fun j : Fin x.length => uIntFn (sqrtW W) x.length (j:ℕ)) *
        (LmatV (fun j : Fin x.length => uIntFn (sqrtW W) x.length (j:ℕ)))ᵀ -
      LmatV (shiftDown ((Jmat x.length).mulVec
          (fun j : Fin x.length => uIntFn (sqrtW W) x.length (j:ℕ)))) *
        (LmatV (shiftDown ((Jmat x.length).mulVec
          (fun j : Fin x.length => uIntFn (sqrtW W) x.length (j:ℕ)))))ᵀ).mulVec
        ((Tmat x.length (tauFn (sqrtW W))).mulVec (chirpVec (sqrtW W) A x.length x)))
        ⟨k, hk⟩ =
      uIntFn (sqrtW W) x.length 0 * chirpVec (sqrtW W) A x.length x ⟨k, hk⟩ := by
    rw [hgs]
    simp
  rw [show ((LmatV (fun j : Fin x.length => uIntFn (sqrtW W) x.length (j:ℕ)) *
        (LmatV (fun j : Fin x.length => uIntFn (sqrtW W) x.length (j:ℕ)))ᵀ).mulVec
        ((Tmat x.length (tauFn (sqrtW W))).mulVec (chirpVec (sqrtW W) A x.length x)))
        ⟨k, hk⟩ -
      ((LmatV (shiftDown ((Jmat x.length).mulVec
          (fun j : Fin x.length => uIntFn (sqrtW W) x.length (j:ℕ)))) *
        (LmatV (shiftDown ((Jmat x.length).mulVec
          (fun j : Fin x.length => uIntFn (sqrtW W) x.length (j:ℕ)))))ᵀ).mulVec
        ((Tmat x.length (tauFn (sqrtW W))).mulVec (chirpVec (sqrtW W) A x.length x)))
        ⟨k, hk⟩ =
      uIntFn (sqrtW W) x.length 0 * chirpVec (sqrtW W) A x.length x ⟨k, hk⟩ from by
    rw [← hsub, Matrix.sub_mulVec]
    simp]
  rw [ulist_getD W x.length 0 hn, useqFn_eq_uIntFn]
  rw [mul_div_cancel_left₀ _ (uIntFn_zero_ne_zero (sqrtW W) hs x.length hroot')]
  rw [cpow_nat, cpow_neg_natsq_half]
  show A ^ (k:ℕ) * sqrtW W ^ (-((k:ℕ):ℤ)^2) *
      (sqrtW W ^ (((k:ℕ):ℤ)^2) * A ^ (-((k:ℕ):ℤ)) * x.getD k 0) = x.getD k 0
  have e1 : sqrtW W ^ (-((k:ℕ):ℤ)^2) * sqrtW W ^ (((k:ℕ):ℤ)^2) = 1 := by
    rw [← zpow_add₀ hs]
    simp
  have e2 : A ^ (((k:ℕ)):ℤ) * A ^ (-((k:ℕ):ℤ)) = 1 := by
    rw [← zpow_add₀ hA]
    simp
  rw [← zpow_natCast A k]
  calc A ^ ((k:ℕ):ℤ) * sqrtW W ^ (-((k:ℕ):ℤ)^2) *
      (sqrtW W ^ (((k:ℕ):ℤ)^2) * A ^ (-((k:ℕ):ℤ)) * x.getD k 0)
      = (sqrtW W ^ (-((k:ℕ):ℤ)^2) * sqrtW W ^ (((k:ℕ):ℤ)^2)) *
        (A ^ ((k:ℕ):ℤ) * A ^ (-((k:ℕ):ℤ))) * x.getD k 0 := by ring
    _ = x.getD k 0 := by rw [e1, e2]; ring

/-! ### Error-branch helpers -/

theorem toeplitz_no_dim (r c x : List ℂ) (a b : ℕ) :
    toeplitz_multiply_e r c x ≠ .error (.dimensionMismatch a b) := by
  unfold toeplitz_multiply_e circulant_multiply
  split_ifs <;> simp [Except.map]
  split
  · next y e heq =>
      split at heq
      · cases heq
      · cases heq
        simp
  · next y v heq =>
      simp

theorem iczt_ok_no_dim (X : List ℂ) (N : ℕ) (W A : ℂ) (hX : X.length = N) (a b : ℕ) :
    iczt X N W A ≠ .error (.dimensionMismatch a b) := by
  simp only [iczt]
  rw [if_neg (by omega)]
  by_cases hN : N = 0
  · rw [if_pos hN]
    simp
  · rw [if_neg hN]
    rcases h1 : toeplitz_multiply_e (uhatList W N) (List.replicate N (0:ℂ))
        (icztPre X N W) with e1 | t1
    · have h := toeplitz_no_dim (uhatList W N) (List.replicate N (0:ℂ))
        (icztPre X N W) a b
      rw [h1] at h
      simpa [Except.bind] using h
    · simp only [Except.bind]
      rcases h2 : toeplitz_multiply_e (List.replicate N (0:ℂ)) (uhatList W N) t1
          with e2 | t2
      · have h := toeplitz_no_dim (List.replicate N (0:ℂ)) (uhatList W N) t1 a b
        rw [h2] at h
        simpa [Except.bind] using h
      · simp only [Except.bind]
        rcases h3 : toeplitz_multiply_e (ulist W N) (utilList W N) (icztPre X N W)
            with e3 | t3
        · have h := toeplitz_no_dim (ulist W N) (utilList W N) (icztPre X N W) a b
          rw [h3] at h
          simpa [Except.bind] using h
        · simp only [Except.bind]
          rcases h4 : toeplitz_multiply_e (utilList W N) (ulist W N) t3 with e4 | t4
          · have h := toeplitz_no_dim (utilList W N) (ulist W N) t3 a b
            rw [h4] at h
            simpa [Except.bind] using h
          · simp [Except.bind]

theorem toeplitzDense_c3_val :
    toeplitzDense [(1:ℂ),2] [1,4] [0,1] = [(2:ℂ),1] := by
  show (List.range 2).map _ = _
  rw [show List.range 2 = [0,1] from rfl]
  simp [toeplitzDense, Finset.sum_range_succ]

theorem toeplitzClaimDense_c3_val :
    toeplitzClaimDense [(1:ℂ),2] [1,4] [0,1] = [(2:ℂ),4] := by
  show (List.range 2).map _ = _
  rw [show List.range 2 = [0,1] from rfl]
  simp [toeplitzClaimDense, Finset.sum_range_succ]

/-! ### The claims -/

/-- Claim C1: for every complex sequence `x` of length `N ≥ 1` and non-zero
parameters `W`, `A` with `W^k ≠ 1` for `k = 1..N-1`, the inverse transform
undoes the forward transform: `iczt (czt x N W A) N W A = x` (exactly, in
the exact-arithmetic model). -/
theorem claim_C1 (x : List ℂ) (W A : ℂ) (hx : 1 ≤ x.length) (hW : W ≠ 0) (hA : A ≠ 0)
    (hroot : ∀ k, 1 ≤ k → k ≤ x.length - 1 → W ^ k ≠ 1) :
    (czt x x.length W A).bind (fun X => iczt X x.length W A) = .ok x := by
  rw [czt_eq_spec x x.length W A (by omega) (by omega) hW hA]
  simp only [Except.bind]
  exact roundtrip_core x W A (by omega) hW hA hroot

theorem claim_C1_witness :
    1 ≤ ([(1:ℂ)] : List ℂ).length ∧
    (czt [(1:ℂ)] ([(1:ℂ)] : List ℂ).length 1 1).bind
      (fun X => iczt X ([(1:ℂ)] : List ℂ).length 1 1) = .ok [(1:ℂ)] :=
  ⟨by simp, claim_C1 [(1:ℂ)] 1 1 (by simp) one_ne_zero one_ne_zero
    (by intro k h1 h2; simp at h2; omega)⟩

/-- Claim C2: for every `x` of length `N ≥ 1`, `M ≥ 1` and non-zero `W`, `A`,
`czt x M W A` returns a sequence `X` of length `M` with
`X k = Σ_{j<N} x j * A^(-j) * W^(j*k)`. -/
theorem claim_C2 (x : List ℂ) (M : ℕ) (W A : ℂ) (hx : 1 ≤ x.length) (hM : 1 ≤ M)
    (hW : W ≠ 0) (hA : A ≠ 0) :
    ∃ X : List ℂ, czt x M W A = .ok X ∧ X.length = M ∧
      ∀ k < M, X.getD k 0 =
        ∑ j in Finset.range x.length, x.getD j 0 * A ^ (-(j:ℤ)) * W ^ (j * k) := by
  refine ⟨cztSpec x M W A, czt_eq_spec x M W A (by omega) (by omega) hW hA,
    by simp [cztSpec], ?_⟩
  intro k hk
  simp only [cztSpec]
  exact getD_map_range_zero _ _ _ hk

theorem claim_C2_witness :
    1 ≤ ([(1:ℂ)] : List ℂ).length ∧ 1 ≤ 1 ∧
    (∃ X : List ℂ, czt [(1:ℂ)] 1 1 1 = .ok X ∧ X.length = 1 ∧
      ∀ k < 1, X.getD k 0 =
        ∑ j in Finset.range ([(1:ℂ)] : List ℂ).length,
          ([(1:ℂ)] : List ℂ).getD j 0 * (1:ℂ) ^ (-(j:ℤ)) * (1:ℂ) ^ (j * k)) :=
  ⟨by simp, le_refl 1,
    claim_C2 [(1:ℂ)] 1 1 1 (by simp) (le_refl 1) one_ne_zero one_ne_zero⟩

/-- Claim C3 (amended): with `r[0] = c[0]`, `r`, `c` non-empty and
`len x = len r`, `toeplitz_multiply_e r c x` returns the length-`M` product by
the Toeplitz matrix whose entry `(i,j)` is `c[i-j]` when `i ≥ j` — constant
along diagonals, not `c[i]` as the claim literally reads — and `r[j-i]`
otherwise. -/
theorem claim_C3 (r c x : List ℂ) (hr : 1 ≤ r.length) (hc : 1 ≤ c.length)
    (h0 : r.getD 0 0 = c.getD 0 0) (hx : x.length = r.length) :
    toeplitz_multiply_e r c x = .ok (toeplitzDense r c x) ∧
    (toeplitzDense r c x).length = c.length ∧
    ∀ i < c.length, (toeplitzDense r c x).getD i 0 =
      ∑ j in Finset.range r.length,
        (if j ≤ i then c.getD (i - j) 0 else r.getD (j - i) 0) * x.getD j 0 := by
  refine ⟨toeplitz_multiply_e_eq_dense r c x (by omega) (by omega) h0 hx,
    toeplitzDense_length r c x, ?_⟩
  intro i hi
  simp only [toeplitzDense]
  exact getD_map_range_zero _ _ _ hi

theorem claim_C3_witness :
    1 ≤ ([(1:ℂ)] : List ℂ).length ∧
    (toeplitz_multiply_e [(1:ℂ)] [(1:ℂ)] [(1:ℂ)] =
        .ok (toeplitzDense [(1:ℂ)] [(1:ℂ)] [(1:ℂ)]) ∧
      (toeplitzDense [(1:ℂ)] [(1:ℂ)] [(1:ℂ)]).length = ([(1:ℂ)] : List ℂ).length ∧
      ∀ i < ([(1:ℂ)] : List ℂ).length,
        (toeplitzDense [(1:ℂ)] [(1:ℂ)] [(1:ℂ)]).getD i 0 =
          ∑ j in Finset.range ([(1:ℂ)] : List ℂ).length,
            (if j ≤ i then ([(1:ℂ)] : List ℂ).getD (i - j) 0
             else ([(1:ℂ)] : List ℂ).getD (j - i) 0) * ([(1:ℂ)] : List ℂ).getD j 0) :=
  ⟨by simp, claim_C3 [(1:ℂ)] [(1:ℂ)] [(1:ℂ)] (by simp) (by simp) rfl rfl⟩

theorem claim_C3_counterexample :
    toeplitz_multiply_e [(1:ℂ),2] [1,4] [0,1] = .ok [(2:ℂ),1] ∧
    toeplitzClaimDense [(1:ℂ),2] [1,4] [0,1] = [(2:ℂ),4] ∧
    ([(2:ℂ),1] : List ℂ) ≠ [(2:ℂ),4] := by
  refine ⟨?_, toeplitzClaimDense_c3_val, by norm_num⟩
  rw [toeplitz_multiply_e_eq_dense [(1:ℂ),2] [1,4] [0,1]
    (by simp) (by simp) rfl (by simp)]
  rw [toeplitzDense_c3_val]

/-- Claim C4: for `c`, `x` of equal length `n ≥ 1`, `circulant_multiply c x`
returns the length-`n` product by the circulant matrix generated by `c`
(entry `(i,j)` is `c[(i-j) mod n]`). -/
theorem claim_C4 (c x : List ℂ) (h : x.length = c.length) (hn : 1 ≤ c.length) :
    circulant_multiply c x = .ok (circulantSpec c x) ∧
    (circulantSpec c x).length = c.length ∧
    ∀ i < c.length, (circulantSpec c x).getD i 0 =
      ∑ j in Finset.range c.length,
        c.getD ((c.length + i - j) % c.length) 0 * x.getD j 0 := by
  refine ⟨circulant_multiply_eq_spec c x h (by omega), by simp [circulantSpec], ?_⟩
  intro i hi
  simp only [circulantSpec]
  exact getD_map_range_zero _ _ _ hi

theorem claim_C4_witness :
    ([(1:ℂ)] : List ℂ).length = ([(2:ℂ)] : List ℂ).length ∧
    (circulant_multiply [(2:ℂ)] [(1:ℂ)] = .ok (circulantSpec [(2:ℂ)] [(1:ℂ)]) ∧
      (circulantSpec [(2:ℂ)] [(1:ℂ)]).length = ([(2:ℂ)] : List ℂ).length ∧
      ∀ i < ([(2:ℂ)] : List ℂ).length,
        (circulantSpec [(2:ℂ)] [(1:ℂ)]).getD i 0 =
          ∑ j in Finset.range ([(2:ℂ)] : List ℂ).length,
            ([(2:ℂ)] : List ℂ).getD ((([(2:ℂ)] : List ℂ).length + i - j) %
              ([(2:ℂ)] : List ℂ).length) 0 * ([(1:ℂ)] : List ℂ).getD j 0) :=
  ⟨rfl, claim_C4 [(2:ℂ)] [(1:ℂ)] rfl (by simp)⟩

/-- Claim C5: with `M = N`, `W = exp(-2*pi*i/N)` and `A = 1`, the chirp
z-transform is the standard discrete Fourier transform. -/
theorem claim_C5 (x : List ℂ) (hx : 1 ≤ x.length) :
    czt x x.length (Complex.exp (-(2 * Real.pi * Complex.I) / (x.length : ℂ))) 1 =
      .ok (dftSpec x) := by
  have hW : Complex.exp (-(2 * Real.pi * Complex.I) / (x.length : ℂ)) ≠ 0 :=
    Complex.exp_ne_zero _
  rw [czt_eq_spec x x.length _ 1 (by omega) (by omega) hW one_ne_zero]
  congr 1
  simp only [cztSpec, dftSpec]
  apply map_range_congr
  intro k hk
  apply Finset.sum_congr rfl
  intro j hj
  rw [show (1:ℂ) ^ (-(j:ℤ)) = 1 from one_zpow _, mul_one]
  congr 1
  rw [← Complex.exp_nat_mul]
  congr 1
  push_cast
  ring

theorem claim_C5_witness :
    1 ≤ ([(1:ℂ)] : List ℂ).length ∧
    czt [(1:ℂ)] ([(1:ℂ)] : List ℂ).length
      (Complex.exp (-(2 * Real.pi * Complex.I) / ((([(1:ℂ)] : List ℂ).length : ℕ) : ℂ))) 1 =
      .ok (dftSpec [(1:ℂ)]) :=
  ⟨by simp, claim_C5 [(1:ℂ)] (by simp)⟩

/-- Claim C6 (amended): on zero-length input the code does not return an
empty sequence — `czt` of an empty `x`, `czt` with `M = 0` and `iczt` of an
empty `X` with `N = 0` all raise `IndexError` (indexing `r[0]`/`c[0]` of an
empty array, resp. assigning `p[0]`). -/
theorem claim_C6 :
    (∀ (M : ℕ) (W A : ℂ), czt [] M W A = .error .indexError) ∧
    (∀ (x : List ℂ) (W A : ℂ), czt x 0 W A = .error .indexError) ∧
    (∀ W A : ℂ, iczt [] 0 W A = .error .indexError) := by
  refine ⟨fun M W A => ?_, fun x W A => ?_, fun W A => ?_⟩
  · simp [czt, toeplitz_multiply_e, Except.map]
  · rcases Nat.eq_zero_or_pos x.length with h | h
    · simp [czt, toeplitz_multiply_e, Except.map, h]
    · have h' : x.length ≠ 0 := by omega
      simp [czt, toeplitz_multiply_e, Except.map, h']
  · simp [iczt]

theorem claim_C6_counterexample :
    czt [] 3 1 1 = .error .indexError ∧
    czt [(1:ℂ)] 0 1 1 = .error .indexError ∧
    iczt [] 0 1 1 = .error .indexError := by
  refine ⟨?_, ?_, ?_⟩
  · simp [czt, toeplitz_multiply_e, Except.map]
  · simp [czt, toeplitz_multiply_e, Except.map]
  · simp [iczt]

/-- Claim C7: with `r`, `c` non-empty, `toeplitz_multiply_e` raises
`ToeplitzInvariantViolation` carrying both offending values exactly when
`r[0] ≠ c[0]`, and with `r[0] = c[0]` and `len x = len r` it never raises
that error. -/
theorem claim_C7 (r c x : List ℂ) (hr : 1 ≤ r.length) (hc : 1 ≤ c.length) :
    (r.getD 0 0 ≠ c.getD 0 0 →
      toeplitz_multiply_e r c x =
        .error (.toeplitzInvariantViolation (r.getD 0 0) (c.getD 0 0))) ∧
    (r.getD 0 0 = c.getD 0 0 → x.length = r.length →
      ∀ a b : ℂ, toeplitz_multiply_e r c x ≠ .error (.toeplitzInvariantViolation a b)) := by
  constructor
  · intro hne
    rw [toeplitz_multiply_e, if_neg (by omega), if_neg (by omega), if_pos hne]
  · intro h0 hx a b
    rw [toeplitz_multiply_e_eq_dense r c x (by omega) (by omega) h0 hx]
    simp

theorem claim_C7_witness :
    toeplitz_multiply_e [(1:ℂ)] [(2:ℂ)] [(1:ℂ)] =
      .error (.toeplitzInvariantViolation 1 2) :=
  (claim_C7 [(1:ℂ)] [(2:ℂ)] [(1:ℂ)] (by simp) (by simp)).1 (by norm_num)

/-- Claim C8: `iczt X N W A` reports `DimensionMismatch` with both `len X`
and `N` exactly when `len X ≠ N`; when the lengths agree that error is never
produced. -/
theorem claim_C8 (X : List ℂ) (N : ℕ) (W A : ℂ) :
    (X.length ≠ N → iczt X N W A = .error (.dimensionMismatch X.length N)) ∧
    (X.length = N → ∀ a b : ℕ, iczt X N W A ≠ .error (.dimensionMismatch a b)) := by
  constructor
  · intro h
    simp only [iczt]
    rw [if_pos h]
  · intro h a b
    exact iczt_ok_no_dim X N W A h a b

theorem claim_C8_witness :
    iczt [(1:ℂ)] 2 1 1 = .error (.dimensionMismatch 1 2) :=
  (claim_C8 [(1:ℂ)] 2 1 1).1 (by simp)

/-- Claim C10: for `N ≥ 1` and `len X = N`, all four internal
`toeplitz_multiply_e` calls of `iczt` satisfy the callee's preconditions and
succeed, so the `ToeplitzInvariantViolation` and `LengthMismatch` branches
are unreachable from inside `iczt`. -/
theorem claim_C10 (X : List ℂ) (N : ℕ) (W : ℂ) (hN : 1 ≤ N) (hX : X.length = N) :
    toeplitz_multiply_e (uhatList W N) (List.replicate N (0:ℂ)) (icztPre X N W) =
      .ok (toeplitzDense (uhatList W N) (List.replicate N (0:ℂ)) (icztPre X N W)) ∧
    toeplitz_multiply_e (List.replicate N (0:ℂ)) (uhatList W N)
        (toeplitzDense (uhatList W N) (List.replicate N (0:ℂ)) (icztPre X N W)) =
      .ok (toeplitzDense (List.replicate N (0:ℂ)) (uhatList W N)
        (toeplitzDense (uhatList W N) (List.replicate N (0:ℂ)) (icztPre X N W))) ∧
    toeplitz_multiply_e (ulist W N) (utilList W N) (icztPre X N W) =
      .ok (toeplitzDense (ulist W N) (utilList W N) (icztPre X N W)) ∧
    toeplitz_multiply_e (utilList W N) (ulist W N)
        (toeplitzDense (ulist W N) (utilList W N) (icztPre X N W)) =
      .ok (toeplitzDense (utilList W N) (ulist W N)
        (toeplitzDense (ulist W N) (utilList W N) (icztPre X N W))) := by
  have hN' : N ≠ 0 := by omega
  refine ⟨?_, ?_, ?_, ?_⟩
  · exact toeplitz_multiply_e_eq_dense (uhatList W N) (List.replicate N (0:ℂ))
      (icztPre X N W)
      (by rw [uhatList_length _ _ hN']; exact hN') (by simp [hN'])
      (by rw [uhatList_head, getD_replicate_zero])
      (by rw [icztPre_length, uhatList_length _ _ hN'])
  · exact toeplitz_multiply_e_eq_dense (List.replicate N (0:ℂ)) (uhatList W N)
      (toeplitzDense (uhatList W N) (List.replicate N (0:ℂ)) (icztPre X N W))
      (by simp [hN']) (by rw [uhatList_length _ _ hN']; exact hN')
      (by rw [uhatList_head, getD_replicate_zero])
      (by rw [toeplitzDense_length])
  · exact toeplitz_multiply_e_eq_dense (ulist W N) (utilList W N) (icztPre X N W)
      (by rw [ulist_length]; exact hN') (by rw [utilList_length _ _ hN']; exact hN')
      (by rw [utilList_head _ _ hN']) (by rw [icztPre_length, ulist_length])
  · exact toeplitz_multiply_e_eq_dense (utilList W N) (ulist W N)
      (toeplitzDense (ulist W N) (utilList W N) (icztPre X N W))
      (by rw [utilList_length _ _ hN']; exact hN') (by rw [ulist_length]; exact hN')
      (by rw [utilList_head _ _ hN'])
      (by rw [toeplitzDense_length])

theorem claim_C10_witness :
    1 ≤ 1 ∧ ([(1:ℂ)] : List ℂ).length = 1 ∧
    (toeplitz_multiply_e (uhatList 1 1) (List.replicate 1 (0:ℂ)) (icztPre [(1:ℂ)] 1 1) =
      .ok (toeplitzDense (uhatList 1 1) (List.replicate 1 (0:ℂ)) (icztPre [(1:ℂ)] 1 1)) ∧
    toeplitz_multiply_e (List.replicate 1 (0:ℂ)) (uhatList 1 1)
        (toeplitzDense (uhatList 1 1) (List.replicate 1 (0:ℂ)) (icztPre [(1:ℂ)] 1 1)) =
      .ok (toeplitzDense (List.replicate 1 (0:ℂ)) (uhatList 1 1)
        (toeplitzDense (uhatList 1 1) (List.replicate 1 (0:ℂ)) (icztPre [(1:ℂ)] 1 1))) ∧
    toeplitz_multiply_e (ulist 1 1) (utilList 1 1) (icztPre [(1:ℂ)] 1 1) =
      .ok (toeplitzDense (ulist 1 1) (utilList 1 1) (icztPre [(1:ℂ)] 1 1)) ∧
    toeplitz_multiply_e (utilList 1 1) (ulist 1 1)
        (toeplitzDense (ulist 1 1) (utilList 1 1) (icztPre [(1:ℂ)] 1 1)) =
      .ok (toeplitzDense (utilList 1 1) (ulist 1 1)
        (toeplitzDense (ulist 1 1) (utilList 1 1) (icztPre [(1:ℂ)] 1 1)))) :=
  ⟨le_refl 1, rfl, claim_C10 [(1:ℂ)] 1 1 (le_refl 1) rfl⟩
